import Mathlib

/-!
Verification development for the polishing core of a nanopore consensus /
variant-calling pipeline (dorado-style `polisher` sources).

The C++ sources are shallowly embedded:
  * `int64_t` values become `Int` (every division that occurs is on
    non-negative operands, where C and Lean integer division agree);
  * `std::vector` / `std::string` become `List`;
  * functions that `throw` become `Except String`;
  * unchecked element accesses (C++ undefined behaviour out of range)
    are modelled by `getD` with a junk default;
  * loops whose bound is not structural are given explicit fuel;
  * torch tensors of logits become `List`-matrices of `ℚ` (exact values),
    and the floating-point Phred computation is modelled over `ℝ`.

Definitions come first, then all lemmas and theorems.
-/

namespace Polisher

/-- Junk-defaulted indexing of a `List Int` with a C++ `int64_t` index.
Out-of-range access is undefined behaviour in the source; the model returns 0. -/
def intAt (l : List Int) (i : Int) : Int := l.getD i.toNat 0

/-- Lexicographic `<` on position pairs, as `std::pair<int64_t,int64_t>::operator<`. -/
def pairLtP (a b : Int × Int) : Prop := a.1 < b.1 ∨ (a.1 = b.1 ∧ a.2 < b.2)

instance (a b : Int × Int) : Decidable (pairLtP a b) := by unfold pairLtP; infer_instance

/-- Lexicographic `<=` on position pairs (`a <= b` is `!(b < a)` for `std::pair`). -/
def pairLeP (a b : Int × Int) : Prop := ¬ pairLtP b a

instance (a b : Int × Int) : Decidable (pairLeP a b) := by unfold pairLeP; infer_instance

/-- The sample data (`polish/sample.h`): position vectors plus identifiers.
The `features` and `depth` tensors of the C++ struct are not modelled: no claim
depends on their numeric content, and every operation slices or concatenates
them exactly in step with the position vectors. -/
structure Sample where
  positions_major : List Int
  positions_minor : List Int
  seq_id : Int
  region_id : Int
deriving Repr, DecidableEq, Inhabited

/-- The empty (default-constructed) sample. -/
def emptySample : Sample := ⟨[], [], -1, -1⟩

/-- Number of pileup columns, `ssize(positions_major)`. -/
def Sample.len (s : Sample) : Int := (s.positions_major.length : Int)

/-- `Sample::get_position`: bounds-checked against `positions_major`,
returns `(-1, -1)` out of range. -/
def Sample.get_position (s : Sample) (idx : Int) : Int × Int :=
  if idx < 0 ∨ s.len ≤ idx then (-1, -1)
  else (intAt s.positions_major idx, intAt s.positions_minor idx)

/-- `Sample::get_last_position`. -/
def Sample.get_last_position (s : Sample) : Int × Int :=
  s.get_position (s.len - 1)

/-- `Sample::start`: first major coordinate, `-1` when empty. -/
def Sample.start (s : Sample) : Int :=
  if s.positions_major = [] then -1 else s.positions_major.headD 0

/-- `Sample::end`: one past the last major coordinate, `-1` when empty. -/
def Sample.end_ (s : Sample) : Int :=
  if s.positions_major = [] then -1 else s.positions_major.getLastD 0 + 1

/-- The relationship between two neighbouring samples (`trim.cpp`). -/
inductive Relationship where
  | DIFFERENT_REF_NAME
  | FORWARD_OVERLAP
  | REVERSE_OVERLAP
  | FORWARD_ABUTTED
  | REVERSE_ABUTTED
  | FORWARD_GAPPED
  | REVERSE_GAPPED
  | S2_WITHIN_S1
  | S1_WITHIN_S2
  | UNKNOWN
deriving Repr, DecidableEq

/-- `ordered_abuts` lambda of `relative_position`. -/
def ordered_abuts (s1 s2 : Sample) : Prop :=
  let e := s1.get_last_position
  let b := s2.get_position 0
  (b.1 = e.1 + 1 ∧ b.2 = 0) ∨ (b.1 = e.1 ∧ b.2 = e.2 + 1)

instance (s1 s2 : Sample) : Decidable (ordered_abuts s1 s2) := by
  unfold ordered_abuts; infer_instance

/-- `ordered_contained` lambda of `relative_position`. -/
def ordered_contained (s1 s2 : Sample) : Prop :=
  pairLeP (s1.get_position 0) (s2.get_position 0) ∧
    pairLeP (s2.get_last_position) (s1.get_last_position)

instance (s1 s2 : Sample) : Decidable (ordered_contained s1 s2) := by
  unfold ordered_contained; infer_instance

/-- `ordered_overlaps` lambda of `relative_position`. -/
def ordered_overlaps (s1 s2 : Sample) : Prop :=
  let e := s1.get_last_position
  let b := s2.get_position 0
  b.1 < e.1 ∨ (b.1 = e.1 ∧ b.2 < e.2 + 1)

instance (s1 s2 : Sample) : Decidable (ordered_overlaps s1 s2) := by
  unfold ordered_overlaps; infer_instance

/-- `ordered_gapped` lambda of `relative_position`. -/
def ordered_gapped (s1 s2 : Sample) : Prop :=
  let e := s1.get_last_position
  let b := s2.get_position 0
  e.1 + 1 < b.1 ∨ (e.1 < b.1 ∧ 0 < b.2) ∨ (b.1 = e.1 ∧ e.2 + 1 < b.2)

instance (s1 s2 : Sample) : Decidable (ordered_gapped s1 s2) := by
  unfold ordered_gapped; infer_instance

/-- Lexicographic `<` on `std::tuple(position_pair, -size)` used to order the
two samples inside `relative_position`. -/
def tupLtP (a b : (Int × Int) × Int) : Prop :=
  pairLtP a.1 b.1 ∨ (a.1 = b.1 ∧ a.2 < b.2)

instance (a b : (Int × Int) × Int) : Decidable (tupLtP a b) := by
  unfold tupLtP; infer_instance

/-- `relative_position` (`trim.cpp`): classify the relationship of two samples. -/
def relative_position (s1 s2 : Sample) : Relationship :=
  if s1.seq_id ≠ s2.seq_id then .DIFFERENT_REF_NAME
  else
    -- Sort s1 and s2 by first position, and then by size in descending order.
    let is_ordered : Prop :=
      ¬ tupLtP (s2.get_position 0, -s2.len) (s1.get_position 0, -s1.len)
    let a := if is_ordered then s1 else s2
    let b := if is_ordered then s2 else s1
    if ordered_contained a b then
      (if is_ordered then .S2_WITHIN_S1 else .S1_WITHIN_S2)
    else if ordered_abuts a b then
      (if is_ordered then .FORWARD_ABUTTED else .REVERSE_ABUTTED)
    else if ordered_overlaps a b then
      (if is_ordered then .FORWARD_OVERLAP else .REVERSE_OVERLAP)
    else if ordered_gapped a b then
      (if is_ordered then .FORWARD_GAPPED else .REVERSE_GAPPED)
    else .UNKNOWN

/-- Loop of the `find_left` lambda in `overlap_indices`: scan `idx` upward;
at the first position with `target < pos` return `idx - 1`; if the scan
completes, the C++ loop variable equals the length. -/
def findLeftGo (s : Sample) (target : Int × Int) : Nat → Int → Int
  | 0, idx => idx
  | n + 1, idx =>
      if pairLtP target (s.get_position idx) then idx - 1
      else findLeftGo s target n (idx + 1)

/-- `find_left` lambda of `overlap_indices`. -/
def find_left (s : Sample) (target : Int × Int) : Int :=
  findLeftGo s target s.positions_major.length 0

/-- Loop of the `find_right` lambda: at the first position with `target <= pos`
return `idx + 1`; if the scan completes the loop variable equals the length. -/
def findRightGo (s : Sample) (target : Int × Int) : Nat → Int → Int
  | 0, idx => idx
  | n + 1, idx =>
      if pairLeP target (s.get_position idx) then idx + 1
      else findRightGo s target n (idx + 1)

/-- `find_right` lambda of `overlap_indices`. -/
def find_right (s : Sample) (target : Int × Int) : Int :=
  findRightGo s target s.positions_major.length 0

/-- Element loop of the `compare_subvectors` lambda. -/
def compareRun (a b : List Int) : Nat → Int → Int → Prop
  | 0, _, _ => True
  | n + 1, i, j => intAt a i = intAt b j ∧ compareRun a b n (i + 1) (j + 1)

instance (a b : List Int) (n : Nat) (i j : Int) : Decidable (compareRun a b n i j) := by
  induction n generalizing i j with
  | zero => exact .isTrue trivial
  | succ n ih => exact @instDecidableAnd _ _ _ (ih _ _)

/-- `compare_subvectors` lambda of `overlap_indices` (the `std::cerr` traces of
the source are side effects only and are dropped). -/
def compare_subvectors (a : List Int) (a_start a_end : Int) (b : List Int)
    (b_start b_end : Int) : Prop :=
  if a_end - a_start ≠ b_end - b_start then False
  else compareRun a b (a_end - a_start).toNat a_start b_start

instance (a : List Int) (i j : Int) (b : List Int) (k l : Int) :
    Decidable (compare_subvectors a i j b k l) := by
  unfold compare_subvectors; split <;> infer_instance

/-- Inner loop of the `count_unique` lambda. -/
def countUniqueGo (a : List Int) : Nat → Int → Int → Int → Int
  | 0, _, _, ret => ret
  | n + 1, i, prev, ret =>
      if intAt a i = prev then countUniqueGo a n (i + 1) prev ret
      else countUniqueGo a n (i + 1) (intAt a i) (ret + 1)

/-- `count_unique` lambda of the heuristic branch of `overlap_indices`. -/
def count_unique (a : List Int) (start end_ : Int) : Int :=
  if a = [] ∨ end_ ≤ start ∨ (a.length : Int) ≤ start ∨ (a.length : Int) < end_ then 0
  else countUniqueGo a (end_ - (start + 1)).toNat (start + 1) (intAt a start) 1

/-- Inner loop of the `streak_count` lambda. -/
def streakGo (a : List Int) (v : Int) : Nat → Int → Int → Int
  | 0, _, ret => ret
  | n + 1, i, ret =>
      if intAt a i ≠ v then ret else streakGo a v n (i + 1) (ret + 1)

/-- `streak_count` lambda of the heuristic branch of `overlap_indices`. -/
def streak_count (a : List Int) (start : Int) : Int :=
  if a = [] ∨ (a.length : Int) ≤ start then 0
  else streakGo a (intAt a start) ((a.length : Int) - (start + 1)).toNat (start + 1) 1

/-- `std::lower_bound` on a `std::vector<int64_t>`, as the index of the first
element not less than `v` (linear-scan semantics; the data the heuristic feeds
it is sorted whenever the branch is reachable). -/
def lower_bound (a : List Int) (v : Int) : Int :=
  (a.findIdx (fun x => decide (v ≤ x)) : Int)

/-- Body of the inner `for (test : {+offset, -offset})` of the heuristic while
loop: returns the new `(end_1_ind, start_2_ind)` when the streaks match. -/
def heurTry (s1 s2 : Sample) (mid test : Int) : Option (Int × Int) :=
  let left_pos := lower_bound s1.positions_major (mid + test)
  let right_pos := lower_bound s2.positions_major (mid + test)
  let left_streak := streak_count s1.positions_major left_pos
  let right_streak := streak_count s2.positions_major right_pos
  if left_pos < (s1.positions_major.length : Int) ∧
      right_pos < (s2.positions_major.length : Int) ∧ left_streak = right_streak
  then some (left_pos, right_pos) else none

/-- The `while (end_1_ind == -1)` search of the heuristic branch, with fuel.
The guard is tested before each iteration, exactly as in the source; the branch
always enters it with `end_1_ind = ssize(positions_major) ≥ 0`, so the loop
body never runs. -/
def heurWhile (s1 s2 : Sample) (start end_ mid : Int) :
    Nat → Int → Int → Int → Int × Int
  | 0, e1, s2i, _ => (e1, s2i)
  | fuel + 1, e1, s2i, offset =>
      if e1 = -1 then
        if end_ < mid + offset ∧ mid - offset < start then (e1, s2i)
        else
          match heurTry s1 s2 mid offset with
          | some (l, r) => (l, r)
          | none =>
              match heurTry s1 s2 mid (-offset) with
              | some (l, r) => (l, r)
              | none => heurWhile s1 s2 start end_ mid fuel e1 s2i (offset + 1)
      else (e1, s2i)

/-- Heuristic fallback of `overlap_indices` (reached when the minor
sub-sequences of the overlap do not match): `end_1_ind` is reset to
`ssize(s1.positions_major)` and `start_2_ind` to 0 before the guarded search. -/
def heuristicBranch (s1 s2 : Sample) (ovl_start_ind1 ovl_end_ind2 : Int) :
    Except String (Int × Int × Bool) :=
  let end_1_ind := s1.len
  let start_2_ind : Int := 0
  let unique_s1 :=
    count_unique s1.positions_major ovl_start_ind1 (s1.positions_minor.length : Int)
  let unique_s2 := count_unique s2.positions_major 0 ovl_end_ind2
  if 3 < unique_s1 ∧ 3 < unique_s2 then
    let start := intAt s1.positions_major ovl_start_ind1
    let end_ := s1.positions_major.getLastD 0
    let mid := start + (end_ - start) / 2
    let p := heurWhile s1 s2 start end_ mid ((end_ - start).toNat + 2)
      end_1_ind start_2_ind 1
    .ok (p.1, p.2, true)
  else .ok (end_1_ind, start_2_ind, true)

/-- `overlap_indices` (`trim.cpp`): the splice cut point for two neighbouring
samples. Debug `std::cerr` traces are side effects only and are dropped. -/
def overlap_indices (s1 s2 : Sample) : Except String (Int × Int × Bool) :=
  let rel := relative_position s1 s2
  if rel = .FORWARD_ABUTTED then .ok (s1.len, 0, false)
  else if rel ≠ .FORWARD_OVERLAP then
    .error ("Cannot overlap samples! Relationship is not FORWARD_OVERLAP.")
  else
    let ovl_start_ind1 := find_left s1 (s2.get_position 0)
    let ovl_end_ind2 := find_right s2 s1.get_last_position
    if ovl_start_ind1 < 0 ∨ ovl_end_ind2 < 0 then
      .error ("Samples should be overlappnig, but cannot find adequate cooordinate positions!")
    else
      if compare_subvectors s1.positions_minor ovl_start_ind1
          (s1.positions_minor.length : Int) s2.positions_minor 0 ovl_end_ind2 then
        -- Take midpoint as break point.
        let overlap_len := ovl_end_ind2
        let pad_1 := overlap_len / 2
        let pad_2 := overlap_len - pad_1
        let end_1_ind := ovl_start_ind1 + pad_1
        let start_2_ind := ovl_end_ind2 - pad_2
        if (end_1_ind - ovl_start_ind1) + (ovl_end_ind2 - start_2_ind) ≠ overlap_len then
          heuristicBranch s1 s2 ovl_start_ind1 ovl_end_ind2
        else .ok (end_1_ind, start_2_ind, false)
      else heuristicBranch s1 s2 ovl_start_ind1 ovl_end_ind2

/-- Trim interval of one sample (`trim.cpp` uses this richer shape; its
default is start 0, end -1). -/
structure TrimInfo where
  start : Int := 0
  end_ : Int := -1
  heuristic : Bool := false
  is_last_in_contig : Bool := false
deriving Repr, DecidableEq

instance : Inhabited TrimInfo := ⟨{}⟩

/-- In-place update of `result[i]`, as mutation of a `std::vector` element
(no-op out of range, which never happens in the modelled code). -/
def modifyAt (l : List TrimInfo) (i : Nat) (f : TrimInfo → TrimInfo) : List TrimInfo :=
  l.set i (f (l.getD i default))

/-- One iteration of the main loop of `trim_samples` at index `i`, acting on
the state `(result, idx_s1)`. Debug `std::cerr` traces and the `num_heuristic`
counter are side effects only and are dropped. -/
def trimStep (samples : List Sample) (st : List TrimInfo × Nat) (i : Nat) :
    Except String (List TrimInfo × Nat) :=
  let s1 := samples.getD st.2 emptySample
  let s2 := samples.getD i emptySample
  let res := modifyAt st.1 i (fun t => { t with start := 0, end_ := s2.len })
  match relative_position s1 s2 with
  | .S2_WITHIN_S1 => .ok (res, st.2)
  | .FORWARD_OVERLAP =>
      match overlap_indices s1 s2 with
      | .error e => .error e
      | .ok (e1, s2s, _h) =>
          .ok (modifyAt (modifyAt res st.2 (fun t => { t with end_ := e1 })) i
                (fun t => { t with start := s2s }), i)
  | .FORWARD_GAPPED =>
      .ok (modifyAt res i (fun t => { t with is_last_in_contig := true }), i)
  | .DIFFERENT_REF_NAME => .ok (res, i)
  | _ =>
      match overlap_indices s1 s2 with
      | .error e =>
          .error ("Unhandled overlap type whilst stitching chunks. Message: " ++ e)
      | .ok (e1, s2s, _h) =>
          .ok (modifyAt (modifyAt res st.2 (fun t => { t with end_ := e1 })) i
                (fun t => { t with start := s2s }), i)

/-- The `for (i = 1; i < size; ++i)` loop of `trim_samples`, running `k` more
iterations starting at index `i`. -/
def trimLoop (samples : List Sample) : Nat → Nat → (List TrimInfo × Nat) →
    Except String (List TrimInfo × Nat)
  | 0, _, st => .ok st
  | k + 1, i, st =>
      match trimStep samples st i with
      | .error e => .error e
      | .ok st' => trimLoop samples k (i + 1) st'

/-- `trim_samples` (`trim.cpp`): per-sample trim intervals so neighbours splice. -/
def trim_samples (samples : List Sample) : Except String (List TrimInfo) :=
  match samples with
  | [] => .ok []
  | s0 :: _ =>
      let n := samples.length
      let init := modifyAt (List.replicate n default) 0
        (fun t => { t with start := 0, end_ := s0.len })
      match trimLoop samples (n - 1) 1 (init, 0) with
      | .error e => .error e
      | .ok (res, _) =>
          .ok (modifyAt res (n - 1)
            (fun t => { t with end_ := (samples.getLastD emptySample).len,
                               is_last_in_contig := true }))

/-- Length of the `j`-th sample of a batch (0 out of range). -/
def sampleLen (samples : List Sample) (j : Nat) : Int :=
  (samples.getD j emptySample).len

/-- Start bound maintained for every trim while `trim_samples` runs: the start
is non-negative and at most half the sample length. -/
def TrimStartOK (len : Int) (t : TrimInfo) : Prop :=
  0 ≤ t.start ∧ 2 * t.start ≤ len

/-- End bound maintained for every already-visited trim while `trim_samples`
runs: the end is at least half the sample length (rounded down) and at most
the sample length. -/
def TrimEndOK (len : Int) (t : TrimInfo) : Prop :=
  len ≤ 2 * t.end_ + 1 ∧ t.end_ ≤ len

/-- Invariant of the state `(result, idx_s1)` of `trim_samples` before
processing index `i`. -/
def trimInv (samples : List Sample) (i : Nat) (st : List TrimInfo × Nat) : Prop :=
  st.1.length = samples.length ∧ st.2 < i ∧
  (∀ j, j < samples.length → TrimStartOK (sampleLen samples j) (st.1.getD j default)) ∧
  (∀ j, j < i → j < samples.length → TrimEndOK (sampleLen samples j) (st.1.getD j default))

/-- Samples sorted by `(seq_id, start position)`, the order the callers of
`trim_samples` are responsible for establishing. -/
def samplesOrdered : List Sample → Prop
  | [] => True
  | [_] => True
  | a :: b :: rest =>
      (a.seq_id < b.seq_id ∨
        (a.seq_id = b.seq_id ∧ pairLeP (a.get_position 0) (b.get_position 0))) ∧
      samplesOrdered (b :: rest)

instance samplesOrderedDec : (samples : List Sample) → Decidable (samplesOrdered samples)
  | [] => .isTrue trivial
  | [_] => .isTrue trivial
  | _ :: b :: rest => @instDecidableAnd _ _ _ (samplesOrderedDec (b :: rest))

/-- Concrete sample pair exercising the `S2_WITHIN_S1` branch of
`trim_samples`: the second sample's position range is contained in the first's. -/
def containedS1 : Sample := ⟨[0, 1, 2, 3, 4, 5], [0, 0, 0, 0, 0, 0], 0, 0⟩

/-- The contained second sample for the `S2_WITHIN_S1` evaluation. -/
def containedS2 : Sample := ⟨[1, 2], [0, 0], 0, 0⟩

/-- First sample of the ordered overlapping pair used to witness the trim
bounds. -/
def boundsW1 : Sample := ⟨[0, 1, 2, 3, 4, 5], [0, 0, 0, 0, 0, 0], 0, 0⟩

/-- Second sample of the ordered overlapping pair used to witness the trim
bounds. -/
def boundsW2 : Sample := ⟨[3, 4, 5, 6, 7, 8], [0, 0, 0, 0, 0, 0], 0, 0⟩

deriving instance DecidableEq for Except

/-- Strictly increasing position pairs (the sample invariant: `major` is
non-decreasing and `minor` strictly increases within one `major`). -/
def posSorted (s : Sample) : Prop :=
  ∀ k, k < s.positions_major.length → ∀ j, j < k →
    pairLtP (s.get_position j) (s.get_position k)

instance (s : Sample) : Decidable (posSorted s) := by
  unfold posSorted
  infer_instance

/-- First sample of the counterexample pair for the claimed midpoint rule:
its last position `(7,0)` is absent from the second sample. -/
def overlapCX1 : Sample := ⟨[0, 5, 7], [0, 0, 0], 0, 0⟩

/-- Second sample of the counterexample pair: it skips over `(7,0)`. -/
def overlapCX2 : Sample := ⟨[5, 6, 8], [0, 0, 0], 0, 0⟩

/-- First sample of the witness pair for the amended midpoint rule. -/
def overlapW1 : Sample := ⟨[0, 1, 2, 3], [0, 0, 0, 0], 0, 0⟩

/-- Second sample of the witness pair: it contains the first sample's last
position `(3,0)`. -/
def overlapW2 : Sample := ⟨[2, 3, 4, 5], [0, 0, 0, 0], 0, 0⟩

/-- The `Window` record of the region planner. -/
structure Window where
  seq_id : Int
  seq_length : Int
  start : Int
  end_ : Int
  region_id : Int
  start_no_overlap : Int
  end_no_overlap : Int
deriving Repr, DecidableEq

/-- The window loop of `create_windows`: `start` steps by
`window_len - window_overlap` and the loop breaks once a window reaches
`seq_end`. Fuel bounds the iterations; the caller passes enough for the
positive step guaranteed by the validated configuration. -/
def createWindowsGo (seq_id seq_start seq_end seq_len window_len window_overlap
    region_id : Int) : Nat → Int → List Window
  | 0, _ => []
  | fuel + 1, start =>
      if start < seq_end then
        let e := min seq_end (start + window_len)
        let sno := if start = seq_start then start
          else min (start + window_overlap) seq_end
        let w : Window := ⟨seq_id, seq_len, start, e, region_id, sno, e⟩
        if e = seq_end then [w]
        else w :: createWindowsGo seq_id seq_start seq_end seq_len window_len
          window_overlap region_id fuel (start + (window_len - window_overlap))
      else []

/-- `create_windows` (`polish_impl.cpp`): linearly split `[seq_start, seq_end)`
into windows. When `window_overlap >= window_len` the source reports the
configuration error (`spdlog::error`) and returns at once with an empty
window vector; that error return is modelled by `none`. -/
def create_windows (seq_id seq_start seq_end seq_len window_len window_overlap
    region_id : Int) : Option (List Window) :=
  if window_overlap ≥ window_len then none
  else some (createWindowsGo seq_id seq_start seq_end seq_len window_len
    window_overlap region_id ((seq_end - seq_start).toNat + 1) seq_start)

/-- Slice `[start, end)` of an int vector with `int64_t` indices. -/
def sliceZ (l : List Int) (start end_ : Int) : List Int :=
  (l.drop start.toNat).take (end_ - start).toNat

/-- `create_chunk` lambda of `split_samples`: slice the per-column vectors. -/
def create_chunk (sample : Sample) (start end_ : Int) : Sample :=
  ⟨sliceZ sample.positions_major start end_, sliceZ sample.positions_minor start end_,
    sample.seq_id, sample.region_id⟩

/-- The `for (start = 0; start < sample_len - chunk_len + 1; start += step)`
loop of `split_samples`, with fuel: `none` models an execution that has not
finished within `fuel` iterations (with `step = 0` the C++ loop runs forever).
The second result is the final value of the loop's `end` variable (0 when the
body never ran). -/
def splitLoopGo (sample : Sample) (chunk_len step bound : Int) :
    Nat → Int → Int → Option (List Sample × Int)
  | 0, _, _ => none
  | fuel + 1, start, endv =>
      if start < bound then
        match splitLoopGo sample chunk_len step bound fuel (start + step)
          (start + chunk_len) with
        | none => none
        | some (rest, e) =>
            some (create_chunk sample start (start + chunk_len) :: rest, e)
      else some ([], endv)

/-- Per-sample body of `split_samples`: pass short samples through, otherwise
run the sliding window and possibly add a final chunk anchored at
`sample_len - chunk_len`. -/
def split_sample_one (sample : Sample) (chunk_len chunk_overlap : Int)
    (fuel : Nat) : Option (List Sample) :=
  if sample.len ≤ chunk_len then some [sample]
  else
    let step := chunk_len - chunk_overlap
    match splitLoopGo sample chunk_len step (sample.len - chunk_len + 1) fuel 0 0 with
    | none => none
    | some (chunks, e) =>
        some (chunks ++
          (if e < sample.len then
            [create_chunk sample (sample.len - chunk_len) sample.len] else []))

/-- The loop of `split_samples` over all its input samples. -/
def splitSamplesFold (chunk_len chunk_overlap : Int) (fuel : Nat) :
    List Sample → Option (List Sample)
  | [] => some []
  | s :: rest =>
      match split_sample_one s chunk_len chunk_overlap fuel with
      | none => none
      | some cs =>
          match splitSamplesFold chunk_len chunk_overlap fuel rest with
          | none => none
          | some rs => some (cs ++ rs)

/-- `split_samples` (`polish_impl.cpp`): blunt re-split of long samples to
`chunk_len` columns with `chunk_overlap` columns of overlap. The precondition
check throws (`Except.error`) exactly when `chunk_overlap < 0` or
`chunk_overlap > chunk_len`; a `none` result models an execution that never
terminates, at any fuel. -/
def split_samples (samples : List Sample) (chunk_len chunk_overlap : Int)
    (fuel : Nat) : Option (Except String (List Sample)) :=
  if chunk_overlap < 0 ∨ chunk_overlap > chunk_len then
    some (.error ("Wrong chunk_overlap length."))
  else
    match splitSamplesFold chunk_len chunk_overlap fuel samples with
    | none => none
    | some res => some (.ok res)

/-- A sample two columns long: `split_samples` with
`chunk_len = chunk_overlap = 1` loops forever on it. -/
def loopSample : Sample := ⟨[0, 1], [0, 0], 0, 0⟩

/-- `find_gaps` lambda of `split_sample_on_discontinuities`: indices `i ≥ 1`
with `positions[i] - positions[i-1] > threshold`. -/
def find_gaps (positions : List Int) (threshold : Int) : List Nat :=
  (List.range positions.length).filter
    (fun i => decide (1 ≤ i ∧ threshold < positions.getD i 0 - positions.getD (i - 1) 0))

/-- Slice `[a, b)` of an int vector with `Nat` indices. -/
def sliceN (l : List Int) (a b : Nat) : List Int := (l.drop a).take (b - a)

/-- One fragment `[a, b)` of a split sample, keeping `seq_id`/`region_id`. -/
def mkPiece (sample : Sample) (a b : Nat) : Sample :=
  ⟨sliceN sample.positions_major a b, sliceN sample.positions_minor a b,
    sample.seq_id, sample.region_id⟩

/-- The per-gap slicing loop plus trailing-piece emission of
`split_sample_on_discontinuities`. -/
def splitPiecesGo (sample : Sample) : Nat → List Nat → List Sample
  | start, [] =>
      if start < sample.positions_major.length then
        [mkPiece sample start sample.positions_major.length]
      else []
  | start, i :: rest => mkPiece sample start i :: splitPiecesGo sample i rest

/-- `split_sample_on_discontinuities` (`polish_impl.cpp`): cut a sample before
every index whose major coordinate jumps by more than one. -/
def split_sample_on_discontinuities (sample : Sample) : List Sample :=
  let gaps := find_gaps sample.positions_major 1
  if gaps = [] then [sample]
  else splitPiecesGo sample 0 gaps

/-- The buffered fold of `merge_adjacent_samples` (`polish_impl.cpp`), on the
position vectors: the state carries the buffered fragments' majors and minors
together with the buffer's `seq_id`, `region_id` and `last_end`. Flushing
concatenates the buffered vectors (the single-element move of the source is
the concatenation of a singleton buffer). -/
def mergeGo : List Sample → List (List Int) → List (List Int) → Int → Int → Int →
    List Sample
  | [], bufM, bufN, sid, rid, _ =>
      if bufM ≠ [] then [⟨bufM.flatten, bufN.flatten, sid, rid⟩] else []
  | s :: rest, bufM, bufN, sid, rid, last_end =>
      if s.positions_major = [] then mergeGo rest bufM bufN sid rid last_end
      else if bufM = [] ∨ (s.seq_id = sid ∧ s.region_id = rid ∧ s.start - last_end = 0)
      then
        mergeGo rest (bufM ++ [s.positions_major]) (bufN ++ [s.positions_minor])
          s.seq_id s.region_id s.end_
      else
        ⟨bufM.flatten, bufN.flatten, sid, rid⟩ ::
          mergeGo rest [s.positions_major] [s.positions_minor]
            s.seq_id s.region_id s.end_

/-- `merge_adjacent_samples` (`polish_impl.cpp`): concatenate runs of
contiguous fragments (same `seq_id` and `region_id`, zero start-to-end
distance), skipping empty fragments. -/
def merge_adjacent_samples (samples : List Sample) : List Sample :=
  mergeGo samples [] [] (-1) (-1) (-1)

/-- A decoded sequence with per-base qualities (`ConsensusResult`). -/
structure ConsensusResult where
  seq : List Char
  quals : List Char
deriving Repr, DecidableEq

instance : Inhabited ConsensusResult := ⟨⟨[], []⟩⟩

/-- `std::string::substr(pos, count)` for the in-range uses of the stitcher
(the count is clamped to the remaining length, as in the C++ standard). -/
def substr (l : List Char) (pos count : Int) : List Char :=
  (l.drop pos.toNat).take count.toNat

/-- The stitching walk of `stitch_sequence`: one iteration per
`(start, sample_index)` item, then the trailing draft fill. `acc` accumulates
the consensus and `last_end` is the inclusive draft coordinate of the last
emitted base. -/
def stitchGo (draft : List Char) (samples : List Sample) (trims : List TrimInfo)
    (sample_results : List ConsensusResult) :
    List (Int × Nat) → ConsensusResult → Int → ConsensusResult
  | [], acc, last_end =>
      if last_end + 1 < (draft.length : Int) then
        ⟨acc.seq ++ draft.drop (last_end + 1).toNat,
          acc.quals ++ List.replicate ((draft.length : Int) - last_end - 1).toNat '!'⟩
      else acc
  | it :: rest, acc, last_end =>
      let sample := samples.getD it.2 emptySample
      let sres := sample_results.getD it.2 default
      let trim := trims.getD it.2 default
      let start_pos := intAt sample.positions_major trim.start
      let end_pos := sample.positions_major.getLastD 0
      let acc1 : ConsensusResult :=
        if last_end + 1 < start_pos then
          ⟨acc.seq ++ substr draft (last_end + 1) (start_pos - last_end - 1),
            acc.quals ++ List.replicate (start_pos - last_end - 1).toNat '!'⟩
        else acc
      let acc2 : ConsensusResult :=
        ⟨acc1.seq ++ substr sres.seq trim.start (trim.end_ - trim.start),
          acc1.quals ++ substr sres.quals trim.start (trim.end_ - trim.start)⟩
      stitchGo draft samples trims sample_results rest acc2 end_pos

/-- `stitch_sequence` (`polish_impl.cpp`): splice the trimmed decoded samples
of one draft sequence, filling uncovered draft stretches from the draft with
`!` qualities. The draft string itself stands in for the `fetch_seq` call on
the draft file (an out-of-scope collaborator). -/
def stitch_sequence (draft : List Char) (samples : List Sample)
    (trims : List TrimInfo) (sample_results : List ConsensusResult)
    (samples_for_seq : List (Int × Nat)) : Except String ConsensusResult :=
  if samples.length ≠ trims.length then
    .error ("Number of samples and trims differs!")
  else if samples_for_seq = [] then
    .ok ⟨draft, List.replicate draft.length '!'⟩
  else .ok (stitchGo draft samples trims sample_results samples_for_seq ⟨[], []⟩ (-1))

/-- Specification shape of the stitched output (claim C6): alternating
draft-gap fills, each paired with a `!`-quality run of exactly the gap's
length, then the trimmed piece of each sample, closed by the draft tail with
`!` qualities of exactly the tail's length. -/
def stitchSpec (draft : List Char) (samples : List Sample) (trims : List TrimInfo)
    (sample_results : List ConsensusResult) :
    List (Int × Nat) → Int → ConsensusResult
  | [], last_end =>
      let tail := if last_end + 1 < (draft.length : Int) then
        draft.drop (last_end + 1).toNat else []
      ⟨tail, List.replicate tail.length '!'⟩
  | it :: rest, last_end =>
      let sample := samples.getD it.2 emptySample
      let sres := sample_results.getD it.2 default
      let trim := trims.getD it.2 default
      let start_pos := intAt sample.positions_major trim.start
      let gap := if last_end + 1 < start_pos then
        substr draft (last_end + 1) (start_pos - last_end - 1) else []
      let next := stitchSpec draft samples trims sample_results rest
        (sample.positions_major.getLastD 0)
      ⟨gap ++ substr sres.seq trim.start (trim.end_ - trim.start) ++ next.seq,
        List.replicate gap.length '!' ++
          substr sres.quals trim.start (trim.end_ - trim.start) ++ next.quals⟩

/-- The label alphabet of the haploid label scheme, `"*ACGT"`
(`decode_bases_impl`, `feature_decoder.cpp`). -/
def label_scheme : List Char := ['*', 'A', 'C', 'G', 'T']

/-- The scan behind `torch::argmax(-1)` on one row: index of the first
maximal element. -/
def argmaxGo : List ℚ → Nat → Nat → ℚ → Nat
  | [], _, best, _ => best
  | x :: rest, i, best, bestv =>
      if bestv < x then argmaxGo rest (i + 1) i x
      else argmaxGo rest (i + 1) best bestv

/-- `argmax` of one logits row (0 on an empty row, never hit in the modelled
code). -/
def argmaxIdx : List ℚ → Nat
  | [] => 0
  | x :: rest => argmaxGo rest 1 0 x

/-- The sequence part of `decode_bases_impl` for a batch of one sample:
`seq[j] = label_scheme[argmax(logits[j])]`. -/
def decode_bases_seq (logits : List (List ℚ)) : List Char :=
  logits.map (fun row => label_scheme.getD (argmaxIdx row) '*')

/-- A sample paired with its per-column class logits
(`VariantCallingSample`, `variant_calling.h`); a logits tensor of shape
`[len, num_classes]` is a list of rows. -/
structure VariantCallingSample where
  sample : Sample
  logits : List (List ℚ)
deriving Repr, DecidableEq

/-- Slice `[a, b)` of the logits rows (the `at::indexing::Slice` on the
first tensor dimension). -/
def sliceQ (l : List (List ℚ)) (start end_ : Int) : List (List ℚ) :=
  (l.drop start.toNat).take (end_ - start).toNat

/-- Modelled from the spec: `slice_sample` keeps the `[start, end)` columns
of every per-column vector and the identifiers (`sample.h`, pinned by
`PolishSampleTest.cpp`). -/
def slice_sample (s : Sample) (idx_start idx_end : Int) : Sample :=
  ⟨sliceZ s.positions_major idx_start idx_end,
    sliceZ s.positions_minor idx_start idx_end, s.seq_id, s.region_id⟩

/-- `slice_vc_sample` (`variant_calling.cpp`): validate the logits length and
the index range, then slice the sample and the logits. -/
def slice_vc_sample (vc : VariantCallingSample) (idx_start idx_end : Int) :
    Except String VariantCallingSample :=
  let num_columns : Int := vc.sample.len
  if (vc.logits.length : Int) ≠ num_columns then
    .error ("VariantCallingSample::logits is of incorrect size.")
  else if idx_start < 0 ∨ num_columns ≤ idx_start ∨ idx_end ≤ idx_start ∨
      num_columns < idx_end then
    .error ("Index is out of range in slice_vc_sample.")
  else
    .ok ⟨slice_sample vc.sample idx_start idx_end, sliceQ vc.logits idx_start idx_end⟩

/-- Modelled from the spec: `merge_adjacent_samples_in_place` extends the
position vectors of the left sample with those of the right one (tensors
concatenated; identifiers kept). -/
def merge_adjacent_samples_in_place (s1 s2 : Sample) : Sample :=
  ⟨s1.positions_major ++ s2.positions_major,
    s1.positions_minor ++ s2.positions_minor, s1.seq_id, s1.region_id⟩

/-- The merging loop of `merge_vc_samples`: the accumulator is the vector's
current back element. -/
def mergeVCGo : List VariantCallingSample → VariantCallingSample →
    List VariantCallingSample
  | [], cur => [cur]
  | v :: rest, cur =>
      if cur.sample.end_ = v.sample.start + 1 then
        mergeVCGo rest
          ⟨merge_adjacent_samples_in_place cur.sample v.sample, cur.logits ++ v.logits⟩
      else cur :: mergeVCGo rest v

/-- `merge_vc_samples` (`variant_calling.cpp`): concatenate neighbouring
variant-calling samples whenever the back sample's exclusive end equals the
next sample's start plus one. -/
def merge_vc_samples : List VariantCallingSample → List VariantCallingSample
  | [] => []
  | v :: rest => mergeVCGo rest v

/-- `extract_draft_with_gaps` (`variant_calling.cpp`): the draft base at each
`minor == 0` column, `'*'` at insertion columns. -/
def extract_draft_with_gaps (draft : List Char) (positions_major positions_minor :
    List Int) : Except String (List Char) :=
  if positions_major.length ≠ positions_minor.length then
    .error ("The positions_major and positions_minor are not of the same size!")
  else
    .ok (List.zipWith
      (fun p m => if m = 0 then draft.getD p.toNat '~' else '*')
      positions_major positions_minor)

/-- The `check_is_diff` lambda of `join_samples`: differing bases, or a gap in
both sequences. -/
def check_is_diff (base1 base2 : Char) : Bool :=
  base1 ≠ base2 || (base1 = '*' && base2 = '*')

/-- The condition of the anchor-search loop of `join_samples`: a `minor == 0`
column whose called base matches the draft base. -/
def anchorCond (minors : List Int) (call ref : List Char) (j : Nat) : Prop :=
  minors.getD j 0 = 0 ∧ check_is_diff (call.getD j '~') (ref.getD j '~') = false

instance (minors : List Int) (call ref : List Char) (j : Nat) :
    Decidable (anchorCond minors call ref j) := by unfold anchorCond; infer_instance

/-- The `for (j = num_positions - 1; j >= 0; --j)` search of `join_samples`
for `last_non_var_start`, descending from the given index; 0 when no column
qualifies. -/
def findAnchor (minors : List Int) (call ref : List Char) : Nat → Nat
  | 0 => 0
  | j + 1 =>
      if anchorCond minors call ref (j + 1) then j + 1
      else findAnchor minors call ref j

/-- The loop body of `join_samples` (`variant_calling.cpp`), carrying `ret`
and `queue`: validate each sample, decode it, compare against the gapped
draft; defer all-diff samples, otherwise split at the last anchor column,
flush and re-queue. A batch of one always decodes to exactly one consensus,
so the `c.size != 1` skip of the source is never taken. -/
def joinGo (draft : List Char) :
    List VariantCallingSample → List VariantCallingSample →
    List VariantCallingSample → Except String (List VariantCallingSample)
  | [], ret, queue =>
      .ok (ret ++ (if queue = [] then [] else merge_vc_samples queue))
  | vc :: rest, ret, queue =>
      if vc.sample.positions_minor.length ≠ vc.sample.positions_major.length then
        .error ("Sample is not valid!")
      else if vc.logits.length ≠ vc.sample.positions_major.length then
        .error ("Length of the logits tensor does not match sample length!")
      else
        let call_with_gaps := decode_bases_seq vc.logits
        match extract_draft_with_gaps draft vc.sample.positions_major
            vc.sample.positions_minor with
        | .error e => .error e
        | .ok draft_with_gaps =>
            let count := ((List.range call_with_gaps.length).filter
              (fun j => check_is_diff (call_with_gaps.getD j '~')
                (draft_with_gaps.getD j '~'))).length
            if count = call_with_gaps.length then
              joinGo draft rest ret (queue ++ [vc])
            else
              let num_positions : Int := vc.sample.len
              let last_non_var_start : Nat := findAnchor vc.sample.positions_minor
                call_with_gaps draft_with_gaps (vc.sample.positions_major.length - 1)
              match slice_vc_sample vc 0 (last_non_var_start : Int),
                  slice_vc_sample vc (last_non_var_start : Int) num_positions with
              | .error e, _ => .error e
              | .ok _, .error e => .error e
              | .ok left_slice, .ok right_slice =>
                  let queue1 := if 0 < last_non_var_start then queue ++ [left_slice]
                    else queue
                  let ret1 := if queue1 = [] then ret
                    else ret ++ merge_vc_samples queue1
                  joinGo draft rest ret1 [right_slice]

/-- `join_samples` (`variant_calling.cpp`): restructure the neighbouring
samples of one draft sequence so that every emitted sample is delimited by
non-variant anchor columns. -/
def join_samples (vc_samples : List VariantCallingSample) (draft : List Char) :
    Except String (List VariantCallingSample) :=
  joinGo draft vc_samples [] []

/-- Set the `[a, b)` entries of a Boolean vector (the two backpatching loops
of `variant_columns`). -/
def setTrueRange (l : List Bool) (a b : Nat) : List Bool :=
  l.mapIdx (fun j x => if a ≤ j ∧ j < b then true else x)

/-- The `for (i = 1; i < len; ++i)` loop of `variant_columns`, carrying the
result vector, the current insert-run length and the running `is_var` flag. -/
def vcGo (minor : List Int) (reference prediction : List Char) :
    List Nat → List Bool → Nat → Bool → List Bool × Nat × Bool
  | [], ret, il, iv => (ret, il, iv)
  | i :: rest, ret, il, iv =>
      if minor.getD i 0 = 0 then
        let ret1 := if iv then setTrueRange ret (i - il) i else ret
        let iv1 := decide (reference.getD i '~' ≠ prediction.getD i '~')
        vcGo minor reference prediction rest (ret1.set i iv1) 0 iv1
      else
        vcGo minor reference prediction rest ret (il + 1)
          (iv || decide (reference.getD i '~' ≠ prediction.getD i '~'))

/-- `variant_columns` (`variant_calling.cpp`): mark candidate variant
columns, widening every insert run that contains a difference. -/
def variant_columns (minor : List Int) (reference prediction : List Char) :
    Except String (List Bool) :=
  if ¬ (minor.length = reference.length ∧ reference.length = prediction.length) then
    .error ("Cannot find variant columns because sequences are not of equal length.")
  else
    let len := prediction.length
    let iv0 := decide (reference.getD 0 '~' ≠ prediction.getD 0 '~')
    let st := vcGo minor reference prediction (List.range' 1 (len - 1))
      ((List.replicate len false).set 0 iv0) 0 iv0
    .ok (if st.2.2 then setTrueRange st.1 (len - st.2.1) len else st.1)

/-- Modelled from the spec: `run_length_encode` (`utils/rle.h`, pinned by
`RleTest.cpp`) — maximal runs of equal adjacent elements as
`(start, end, value)` with `end` exclusive. -/
def rleGo : List Bool → Nat → Nat → Bool → List (Nat × Nat × Bool)
  | [], start, i, v => [(start, i, v)]
  | x :: rest, start, i, v =>
      if x = v then rleGo rest start (i + 1) v
      else (start, i, v) :: rleGo rest i (i + 1) x

/-- `run_length_encode` on a Boolean mask. -/
def run_length_encode : List Bool → List (Nat × Nat × Bool)
  | [] => []
  | x :: rest => rleGo rest 0 1 x

/-- The `remove_gaps` lambda of `decode_variants`. -/
def remove_gaps (seq : List Char) : List Char := seq.filter (· ≠ '*')

/-- The `is_subset_of_symbols` lambda of `decode_variants`. -/
def is_subset_of_symbols (symbols query : List Char) : Bool :=
  query.all (fun c => symbols.contains c)

/-- An emitted variant (`variant.h`): identifier, anchor position, reference
and alternative alleles, and the filter field. The floating-point quality and
genotype annotations of the source are outside the scope of the embedding. -/
structure Variant where
  seq_id : Int
  pos : Int
  ref : List Char
  alt : List Char
  filter : List Char
deriving Repr, DecidableEq

/-- `decode_variants` (`variant_calling.cpp`): decode the sample, mark the
candidate variant columns, run-length encode the mask, and emit one variant
per `true` run, skipping trivial cancellations and (without `ambig_ref`)
runs whose reference contains non-alphabet symbols; a run starting on an
insertion column gets the anchor draft base prepended to both alleles. -/
def decode_variants (vc : VariantCallingSample) (draft : List Char)
    (ambig_ref _gvcf : Bool) : Except String (List Variant) :=
  if vc.sample.positions_major = [] then .ok []
  else if vc.sample.positions_minor.getD 0 1 ≠ 0 then
    .error ("The first position of a sample must not be an insertion.")
  else
    let prediction := decode_bases_seq vc.logits
    match extract_draft_with_gaps draft vc.sample.positions_major
        vc.sample.positions_minor with
    | .error e => .error e
    | .ok reference =>
        match variant_columns vc.sample.positions_minor reference prediction with
        | .error e => .error e
        | .ok is_variant =>
            .ok ((run_length_encode is_variant).filterMap (fun r =>
              if r.2.2 = false then none
              else
                let var_ref := remove_gaps ((reference.drop r.1).take (r.2.1 - r.1))
                let var_pred := remove_gaps ((prediction.drop r.1).take (r.2.1 - r.1))
                if var_ref = var_pred then none
                else if ¬ ambig_ref ∧ is_subset_of_symbols label_scheme var_ref = false
                then none
                else
                  let var_pos := intAt vc.sample.positions_major (r.1 : Int)
                  if vc.sample.positions_minor.getD r.1 0 ≠ 0 then
                    some ⟨vc.sample.seq_id, var_pos,
                      draft.getD var_pos.toNat '~' :: var_ref,
                      draft.getD var_pos.toNat '~' :: var_pred, ['P', 'A', 'S', 'S']⟩
                  else
                    some ⟨vc.sample.seq_id, var_pos, var_ref, var_pred,
                      ['P', 'A', 'S', 'S']⟩))

/-- The Phred character code of one chosen-class value:
`(-10 * log10(1 - p)).clamp(0, cap).to(kUInt8) + 33` over the reals, the
unsigned-integer cast of the clamped non-negative value being its floor. A
value `p ≥ 1` saturates at the cap (`1 - p = 0` gives `-log10 0 = +∞` in
floating point, clamped to the cap). -/
noncomputable def phred_char_code (cap p : ℝ) : ℤ :=
  (if 1 ≤ p then ⌊cap⌋
   else ⌊min (max (-10 * Real.logb 10 (1 - p)) 0) cap⌋) + 33

/-- `indices = logits.argmax(-1); probs = torch::gather(logits, -1, indices)`
for one sample of the batch: the chosen per-row value is the RAW logit at the
argmax index — neither decoder applies a softmax
(`decode_bases_impl`, `feature_decoder.cpp`;
`CountsFeatureDecoder::decode_bases`, `counts_feature_encoder.cpp`). -/
def gather_probs (sample : List (List ℚ)) : List ℚ :=
  sample.map (fun row => row.getD (argmaxIdx row) 0)

/-- The per-sample quality codes of `decode_bases_impl` (variant-calling
path): cap 70. -/
noncomputable def decode_bases_impl_quals (sample : List (List ℚ)) : List ℤ :=
  (gather_probs sample).map (fun p => phred_char_code 70 ((p : ℚ) : ℝ))

/-- The per-sample quality codes of `CountsFeatureDecoder::decode_bases`
(consensus path): cap 40. -/
noncomputable def CountsFeatureDecoder_decode_quals (sample : List (List ℚ)) :
    List ℤ :=
  (gather_probs sample).map (fun p => phred_char_code 40 ((p : ℚ) : ℝ))

/-- Specification-side chosen-class probability: softmax the row, then gather
at the argmax index. -/
noncomputable def softmax_gather (row : List ℚ) : ℝ :=
  Real.exp ((row.getD (argmaxIdx row) 0 : ℚ) : ℝ) /
    ((row.map (fun x : ℚ => Real.exp ((x : ℚ) : ℝ))).sum)

/-- Specification-side quality codes: Phred of the softmax probability of the
chosen class. -/
noncomputable def spec_decode_quals (cap : ℝ) (sample : List (List ℚ)) : List ℤ :=
  sample.map (fun row => phred_char_code cap (softmax_gather row))

end Polisher

namespace Polisher

/-- Membership variant of indexing used in several proofs. -/
theorem intAt_mem (l : List Int) (i : Int) (h0 : 0 ≤ i) (h : i < (l.length : Int)) :
    intAt l i ∈ l := by
  unfold intAt
  have hi : i.toNat < l.length := by omega
  rw [List.getD_eq_getElem l 0 hi]
  exact List.getElem_mem hi

/-- The scan of `find_left` moves its index forward at most `n` steps and back
at most one. -/
theorem findLeftGo_bounds (s : Sample) (t : Int × Int) :
    ∀ n i, i - 1 ≤ findLeftGo s t n i ∧ findLeftGo s t n i ≤ i + n := by
  intro n
  induction n with
  | zero => intro i; simp [findLeftGo]
  | succ n ih =>
      intro i
      unfold findLeftGo
      split
      · omega
      · have := ih (i + 1)
        omega

/-- The scan of `find_right` never decreases its index and advances at most
`n` steps. -/
theorem findRightGo_bounds (s : Sample) (t : Int × Int) :
    ∀ n i, i ≤ findRightGo s t n i ∧ findRightGo s t n i ≤ i + n := by
  intro n
  induction n with
  | zero => intro i; simp [findRightGo]
  | succ n ih =>
      intro i
      unfold findRightGo
      split
      · omega
      · have := ih (i + 1)
        omega

/-- A passing `compare_subvectors` forces the two sub-ranges to have equal
lengths. -/
theorem compare_subvectors_len {a : List Int} {i j : Int} {b : List Int} {k l : Int}
    (h : compare_subvectors a i j b k l) : j - i = l - k := by
  unfold compare_subvectors at h
  split at h
  · exact h.elim
  · omega

/-- The heuristic `while` loop is entered with `end_1_ind ≠ -1` and therefore
returns its input unchanged. -/
theorem heurWhile_stable (s1 s2 : Sample) (st en mid : Int) (fuel : Nat)
    (e1 s2i off : Int) (h : e1 ≠ -1) :
    heurWhile s1 s2 st en mid fuel e1 s2i off = (e1, s2i) := by
  cases fuel with
  | zero => rfl
  | succ fuel => simp [heurWhile, h]

/-- The heuristic branch of `overlap_indices` always yields the endpoint pair
`(len(s1), 0)` flagged as heuristic: the inner search loop never runs. -/
theorem heuristicBranch_eq (s1 s2 : Sample) (a b : Int) :
    heuristicBranch s1 s2 a b = .ok (s1.len, 0, true) := by
  unfold heuristicBranch
  simp only []
  split
  · rw [heurWhile_stable]
    have : (0 : Int) ≤ s1.len := Int.natCast_nonneg _
    omega
  · rfl

/-- Bounds on the cut point produced by `overlap_indices`: the end index for
`s1` lies in the upper half of `s1` and the start index for `s2` lies in the
lower half of `s2`. -/
theorem overlap_indices_bounds (s1 s2 : Sample)
    (hm1 : s1.positions_minor.length = s1.positions_major.length)
    (e1 s2s : Int) (hb : Bool)
    (hok : overlap_indices s1 s2 = .ok (e1, s2s, hb)) :
    (s1.len ≤ 2 * e1 + 1 ∧ e1 ≤ s1.len) ∧ (0 ≤ s2s ∧ 2 * s2s ≤ s2.len) := by
  have hlen1 : (0 : Int) ≤ s1.len := Int.natCast_nonneg _
  have hlen2 : (0 : Int) ≤ s2.len := Int.natCast_nonneg _
  unfold overlap_indices at hok
  simp only [] at hok
  split at hok
  · -- FORWARD_ABUTTED
    simp only [Except.ok.injEq, Prod.mk.injEq] at hok
    obtain ⟨h1, h2, -⟩ := hok
    constructor <;> constructor <;> omega
  · split at hok
    · exact absurd hok (by simp)
    · have hfl := findLeftGo_bounds s1 (s2.get_position 0) s1.positions_major.length 0
      have hfr := findRightGo_bounds s2 s1.get_last_position s2.positions_major.length 0
      split at hok
      · exact absurd hok (by simp)
      · rename_i hnotneg
        push_neg at hnotneg
        split at hok
        · rename_i hcmp
          have hlen := compare_subvectors_len hcmp
          split at hok
          · rw [heuristicBranch_eq] at hok
            simp only [Except.ok.injEq, Prod.mk.injEq] at hok
            obtain ⟨h1, h2, -⟩ := hok
            constructor <;> constructor <;> omega
          · simp only [Except.ok.injEq, Prod.mk.injEq] at hok
            obtain ⟨h1, h2, -⟩ := hok
            simp only [find_left, find_right, Sample.len] at *
            constructor <;> constructor <;> omega
        · rw [heuristicBranch_eq] at hok
          simp only [Except.ok.injEq, Prod.mk.injEq] at hok
          obtain ⟨h1, h2, -⟩ := hok
          constructor <;> constructor <;> omega

/-- Claim C2: evaluation of `trim_samples` on a contained pair. The
relationship is `S2_WITHIN_S1`, yet the contained sample keeps its full
extent `(0, len(s2))` instead of being dropped with `(0, 0)` — its columns
are emitted again. -/
theorem trim_samples_s2_within_s1_keeps_full_sample :
    relative_position containedS1 containedS2 = .S2_WITHIN_S1 ∧
    (trim_samples [containedS1, containedS2]).toOption =
      some [⟨0, 6, false, false⟩, ⟨0, 2, false, true⟩] ∧
    ¬ ((⟨0, 2, false, true⟩ : TrimInfo).start = 0 ∧
        (⟨0, 2, false, true⟩ : TrimInfo).end_ = 0) := by
  refine ⟨by decide, by decide, by decide⟩

/-- `modifyAt` preserves the length of the trim vector. -/
theorem modifyAt_length (l : List TrimInfo) (i : Nat) (f : TrimInfo → TrimInfo) :
    (modifyAt l i f).length = l.length := by
  unfold modifyAt
  exact List.length_set ..

/-- Reading back the modified entry. -/
theorem getD_modifyAt_self (l : List TrimInfo) (i : Nat) (f : TrimInfo → TrimInfo)
    (h : i < l.length) :
    (modifyAt l i f).getD i default = f (l.getD i default) := by
  unfold modifyAt
  rw [List.getD_eq_getElem _ _ (by simpa using h)]
  exact List.getElem_set_self _

/-- Reading an entry other than the modified one. -/
theorem getD_modifyAt_ne (l : List TrimInfo) (i j : Nat) (f : TrimInfo → TrimInfo)
    (h : i ≠ j) :
    (modifyAt l i f).getD j default = l.getD j default := by
  unfold modifyAt
  rcases Nat.lt_or_ge j l.length with hj | hj
  · rw [List.getD_eq_getElem _ _ (by simpa using hj), List.getD_eq_getElem _ _ hj]
    exact List.getElem_set_ne h _
  · rw [List.getD_eq_default _ _ (by simpa using hj), List.getD_eq_default _ _ hj]

/-- Sample lengths are non-negative. -/
theorem sampleLen_nonneg (samples : List Sample) (j : Nat) :
    0 ≤ sampleLen samples j := by
  unfold sampleLen Sample.len
  exact Int.natCast_nonneg _

/-- In-range `getD` produces a member of the sample list. -/
theorem getD_sample_mem (samples : List Sample) (j : Nat) (h : j < samples.length) :
    samples.getD j emptySample ∈ samples := by
  rw [List.getD_eq_getElem _ _ h]
  exact List.getElem_mem h

/-- Assembling the invariant for the successor index from per-entry facts. -/
theorem trimInv_build (samples : List Sample) (i : Nat) (st2 : Nat)
    (L : List TrimInfo)
    (hLen : L.length = samples.length) (hx2 : st2 < i + 1)
    (hIs : i < samples.length → TrimStartOK (sampleLen samples i) (L.getD i default))
    (hIe : i < samples.length → TrimEndOK (sampleLen samples i) (L.getD i default))
    (hJ : ∀ j, j < samples.length → j ≠ i →
      TrimStartOK (sampleLen samples j) (L.getD j default) ∧
      (j < i → TrimEndOK (sampleLen samples j) (L.getD j default))) :
    trimInv samples (i + 1) (L, st2) := by
  refine ⟨hLen, hx2, ?_, ?_⟩
  · intro j hj
    by_cases hji : j = i
    · subst hji; exact hIs hj
    · exact (hJ j hj hji).1
  · intro j hj hjn
    by_cases hji : j = i
    · subst hji; exact hIe hjn
    · exact (hJ j hjn hji).2 (by omega)

/-- One step of the `trim_samples` loop preserves the trim-bounds invariant. -/
theorem trimStep_inv (samples : List Sample)
    (hlen : ∀ s ∈ samples, s.positions_minor.length = s.positions_major.length)
    (i : Nat) (hin : i < samples.length)
    (st st' : List TrimInfo × Nat)
    (hinv : trimInv samples i st)
    (hstep : trimStep samples st i = .ok st') :
    trimInv samples (i + 1) st' := by
  obtain ⟨hL, hidx, hstart, hend⟩ := hinv
  have hs2n : st.2 < samples.length := by omega
  have hs2i : st.2 ≠ i := by omega
  have hnonI := sampleLen_nonneg samples i
  -- the unconditional update `trim2 = (0, len(s2))`
  set f0 : TrimInfo → TrimInfo :=
    fun t => { t with start := 0, end_ := (samples.getD i emptySample).len } with hf0
  have hres_at_i : (modifyAt st.1 i f0).getD i default = f0 (st.1.getD i default) :=
    getD_modifyAt_self _ _ _ (by omega)
  have hres_at_ne : ∀ j : Nat, j ≠ i →
      (modifyAt st.1 i f0).getD j default = st.1.getD j default :=
    fun j hj => getD_modifyAt_ne _ _ _ _ (Ne.symm hj)
  have hres_len : (modifyAt st.1 i f0).length = samples.length := by
    rw [modifyAt_length]; exact hL
  have hIs0 : TrimStartOK (sampleLen samples i) ((modifyAt st.1 i f0).getD i default) := by
    rw [hres_at_i]
    have hx : (f0 (st.1.getD i default)).start = 0 := rfl
    unfold TrimStartOK
    rw [hx]
    omega
  have hIe0 : TrimEndOK (sampleLen samples i) ((modifyAt st.1 i f0).getD i default) := by
    rw [hres_at_i]
    have hx : (f0 (st.1.getD i default)).end_ = sampleLen samples i := rfl
    unfold TrimEndOK
    rw [hx]
    omega
  have hJ0 : ∀ j, j < samples.length → j ≠ i →
      TrimStartOK (sampleLen samples j) ((modifyAt st.1 i f0).getD j default) ∧
      (j < i → TrimEndOK (sampleLen samples j) ((modifyAt st.1 i f0).getD j default)) := by
    intro j hj hji
    rw [hres_at_ne j hji]
    exact ⟨hstart j hj, fun hlt => hend j hlt hj⟩
  -- facts for the two-extra-update overlap state
  have hovl : ∀ (e1 s2s : Int) (hB : Bool),
      overlap_indices (samples.getD st.2 emptySample) (samples.getD i emptySample) =
        .ok (e1, s2s, hB) →
      trimInv samples (i + 1)
        (modifyAt (modifyAt (modifyAt st.1 i f0) st.2 (fun t => { t with end_ := e1 })) i
          (fun t => { t with start := s2s }), i) := by
    intro e1 s2s hB heq
    have hb := overlap_indices_bounds (samples.getD st.2 emptySample)
      (samples.getD i emptySample) (hlen _ (getD_sample_mem samples st.2 hs2n))
      e1 s2s hB heq
    have hbS : 0 ≤ s2s ∧ 2 * s2s ≤ sampleLen samples i := hb.2
    have hbE : sampleLen samples st.2 ≤ 2 * e1 + 1 ∧ e1 ≤ sampleLen samples st.2 := hb.1
    refine trimInv_build _ _ _ _ ?_ (by omega) ?_ ?_ ?_
    · rw [modifyAt_length, modifyAt_length]; exact hres_len
    · intro _
      rw [getD_modifyAt_self _ _ _ (by rw [modifyAt_length, hres_len]; omega),
        getD_modifyAt_ne _ _ _ _ hs2i, hres_at_i]
      have hxs : ((fun t : TrimInfo => { t with start := s2s })
          (f0 (st.1.getD i default))).start = s2s := rfl
      unfold TrimStartOK
      rw [hxs]
      omega
    · intro _
      rw [getD_modifyAt_self _ _ _ (by rw [modifyAt_length, hres_len]; omega),
        getD_modifyAt_ne _ _ _ _ hs2i, hres_at_i]
      have hxe : ((fun t : TrimInfo => { t with start := s2s })
          (f0 (st.1.getD i default))).end_ = sampleLen samples i := rfl
      unfold TrimEndOK
      rw [hxe]
      omega
    · intro j hj hji
      rw [getD_modifyAt_ne _ _ _ _ (Ne.symm hji)]
      by_cases hjs : j = st.2
      · subst hjs
        rw [getD_modifyAt_self _ _ _ (by rw [hres_len]; omega), hres_at_ne _ hji]
        have hxs : ((fun t : TrimInfo => { t with end_ := e1 })
            (st.1.getD st.2 default)).start = (st.1.getD st.2 default).start := rfl
        have hxe : ((fun t : TrimInfo => { t with end_ := e1 })
            (st.1.getD st.2 default)).end_ = e1 := rfl
        constructor
        · have := hstart st.2 hj
          unfold TrimStartOK at this ⊢
          rw [hxs]
          omega
        · intro _
          unfold TrimEndOK
          rw [hxe]
          omega
      · rw [getD_modifyAt_ne _ _ _ _ (Ne.symm hjs), hres_at_ne _ hji]
        exact ⟨hstart j hj, fun hlt => hend j hlt hj⟩
  unfold trimStep at hstep
  simp only [] at hstep
  rw [← hf0] at hstep
  split at hstep
  · -- S2_WITHIN_S1
    simp only [Except.ok.injEq] at hstep
    subst hstep
    exact trimInv_build _ _ _ _ hres_len (by omega) (fun _ => hIs0) (fun _ => hIe0) hJ0
  · -- FORWARD_OVERLAP
    split at hstep
    · exact absurd hstep (by simp)
    · simp only [Except.ok.injEq] at hstep
      subst hstep
      next _ _ heq => exact hovl _ _ _ heq
  · -- FORWARD_GAPPED
    simp only [Except.ok.injEq] at hstep
    subst hstep
    refine trimInv_build _ _ _ _ ?_ (by omega) ?_ ?_ ?_
    · rw [modifyAt_length]; exact hres_len
    · intro _
      rw [getD_modifyAt_self _ _ _ (by rw [hres_len]; omega)]
      have hxs : ((fun t : TrimInfo => { t with is_last_in_contig := true })
          ((modifyAt st.1 i f0).getD i default)).start
          = ((modifyAt st.1 i f0).getD i default).start := rfl
      unfold TrimStartOK at hIs0 ⊢
      rw [hxs]
      omega
    · intro _
      rw [getD_modifyAt_self _ _ _ (by rw [hres_len]; omega)]
      have hxe : ((fun t : TrimInfo => { t with is_last_in_contig := true })
          ((modifyAt st.1 i f0).getD i default)).end_
          = ((modifyAt st.1 i f0).getD i default).end_ := rfl
      unfold TrimEndOK at hIe0 ⊢
      rw [hxe]
      omega
    · intro j hj hji
      rw [getD_modifyAt_ne _ _ _ _ (Ne.symm hji)]
      exact hJ0 j hj hji
  · -- DIFFERENT_REF_NAME
    simp only [Except.ok.injEq] at hstep
    subst hstep
    exact trimInv_build _ _ _ _ hres_len (by omega) (fun _ => hIs0) (fun _ => hIe0) hJ0
  · -- remaining relationships re-run overlap_indices and rethrow on error
    split at hstep
    · exact absurd hstep (by simp)
    · simp only [Except.ok.injEq] at hstep
      subst hstep
      next _ _ heq => exact hovl _ _ _ heq

/-- Running the remaining iterations of the `trim_samples` loop preserves the
invariant through to the end of the sample list. -/
theorem trimLoop_inv (samples : List Sample)
    (hlen : ∀ s ∈ samples, s.positions_minor.length = s.positions_major.length) :
    ∀ (k i : Nat) (st st' : List TrimInfo × Nat),
      i + k = samples.length → trimInv samples i st →
      trimLoop samples k i st = .ok st' →
      trimInv samples samples.length st' := by
  intro k
  induction k with
  | zero =>
      intro i st st' hik hinv hloop
      simp only [trimLoop, Except.ok.injEq] at hloop
      subst hloop
      have : i = samples.length := by omega
      subst this
      exact hinv
  | succ k ih =>
      intro i st st' hik hinv hloop
      unfold trimLoop at hloop
      split at hloop
      · exact absurd hloop (by simp)
      · next st1 hstep =>
          exact ih (i + 1) st1 st' (by omega)
            (trimStep_inv samples hlen i (by omega) st st1 hinv hstep) hloop

/-- The last element of a non-empty sample list equals its `getD` at the final
index. -/
theorem getLastD_eq_getD (l : List Sample) (h : l ≠ []) :
    l.getLastD emptySample = l.getD (l.length - 1) emptySample := by
  induction l with
  | nil => exact absurd rfl h
  | cons a t ih =>
      cases t with
      | nil => rfl
      | cons b t2 =>
          have h2 := ih (by simp)
          calc (a :: b :: t2).getLastD emptySample
              = (b :: t2).getLastD emptySample := by simp [List.getLastD]
            _ = (b :: t2).getD ((b :: t2).length - 1) emptySample := h2
            _ = (a :: b :: t2).getD ((a :: b :: t2).length - 1) emptySample := by
                simp [List.getD_cons_succ]

/-- Claim C3: for every ordered, non-empty list of samples (with the
length-agreement sample invariant), every trim interval returned by
`trim_samples` has a non-negative start and satisfies
`start ≤ end ≤ length of the sample`; negative trim starts never occur. -/
theorem trim_samples_bounds (samples : List Sample) (trims : List TrimInfo)
    (hne : samples ≠ [])
    (hord : samplesOrdered samples)
    (hlen : ∀ s ∈ samples, s.positions_minor.length = s.positions_major.length)
    (hok : trim_samples samples = .ok trims) :
    trims.length = samples.length ∧
    ∀ j, j < trims.length →
      0 ≤ (trims.getD j default).start ∧
      (trims.getD j default).start ≤ (trims.getD j default).end_ ∧
      (trims.getD j default).end_ ≤ sampleLen samples j := by
  rcases hsam : samples with _ | ⟨s0, rest⟩
  · exact absurd rfl (hsam ▸ hne)
  · subst hsam
    unfold trim_samples at hok
    simp only [] at hok
    have hinv0 : trimInv (s0 :: rest) 1
        (modifyAt (List.replicate (s0 :: rest).length default) 0
          (fun t => { t with start := 0, end_ := s0.len }), 0) := by
      have hrep : ∀ j : Nat, j < (s0 :: rest).length →
          (List.replicate (s0 :: rest).length (default : TrimInfo)).getD j default
            = default := by
        intro j hj
        rw [List.getD_eq_getElem _ _ (by simpa using hj)]
        exact List.getElem_replicate ..
      refine ⟨by rw [modifyAt_length, List.length_replicate], by omega, ?_, ?_⟩
      · intro j hj
        by_cases hj0 : j = 0
        · subst hj0
          rw [getD_modifyAt_self _ _ _ (by simp), hrep 0 hj]
          have hx : ((fun t : TrimInfo => { t with start := 0, end_ := s0.len })
              default).start = 0 := rfl
          have hs : sampleLen (s0 :: rest) 0 = s0.len := rfl
          unfold TrimStartOK
          rw [hx, hs]
          have := sampleLen_nonneg (s0 :: rest) 0
          rw [hs] at this
          omega
        · rw [getD_modifyAt_ne _ _ _ _ (Ne.symm hj0), hrep j hj]
          have := sampleLen_nonneg (s0 :: rest) j
          have hds : (default : TrimInfo).start = 0 := rfl
          unfold TrimStartOK
          rw [hds]
          omega
      · intro j hj hjn
        have hj0 : j = 0 := by omega
        subst hj0
        rw [getD_modifyAt_self _ _ _ (by simp), hrep 0 hjn]
        have hx : ((fun t : TrimInfo => { t with start := 0, end_ := s0.len })
            default).end_ = s0.len := rfl
        have hs : sampleLen (s0 :: rest) 0 = s0.len := rfl
        unfold TrimEndOK
        rw [hx, hs]
        have := sampleLen_nonneg (s0 :: rest) 0
        rw [hs] at this
        omega
    rcases hloopE : trimLoop (s0 :: rest) ((s0 :: rest).length - 1) 1
        (modifyAt (List.replicate (s0 :: rest).length default) 0
          (fun t => { t with start := 0, end_ := s0.len }), 0) with e | ⟨res, x⟩
    · rw [hloopE] at hok
      exact absurd hok (by simp)
    · rw [hloopE] at hok
      simp only [Except.ok.injEq] at hok
      have hfin := trimLoop_inv (s0 :: rest) hlen ((s0 :: rest).length - 1) 1 _ _
        (by simp; omega) hinv0 hloopE
      obtain ⟨hfL, -, hfS, hfE⟩ := hfin
      dsimp only at hfL hfS hfE
      subst hok
      have hlast : ((s0 :: rest).getLastD emptySample).len =
          sampleLen (s0 :: rest) ((s0 :: rest).length - 1) := by
        rw [getLastD_eq_getD _ (by simp)]
        rfl
      constructor
      · rw [modifyAt_length, hfL]
      · intro j hj
        rw [modifyAt_length, hfL] at hj
        by_cases hjl : j = (s0 :: rest).length - 1
        · subst hjl
          have hbound : (s0 :: rest).length - 1 < res.length := by rw [hfL]; omega
          rw [getD_modifyAt_self _ _ _ hbound]
          have hxs : ((fun t : TrimInfo =>
              { t with end_ := ((s0 :: rest).getLastD emptySample).len,
                       is_last_in_contig := true })
              (res.getD ((s0 :: rest).length - 1) default)).start
              = (res.getD ((s0 :: rest).length - 1) default).start := rfl
          have hxe : ((fun t : TrimInfo =>
              { t with end_ := ((s0 :: rest).getLastD emptySample).len,
                       is_last_in_contig := true })
              (res.getD ((s0 :: rest).length - 1) default)).end_
              = ((s0 :: rest).getLastD emptySample).len := rfl
          have hS := hfS ((s0 :: rest).length - 1) (by omega)
          have hnn := sampleLen_nonneg (s0 :: rest) ((s0 :: rest).length - 1)
          unfold TrimStartOK at hS
          rw [hxs, hxe, hlast]
          omega
        · rw [getD_modifyAt_ne _ _ _ _ (fun hh => hjl hh.symm)]
          have hS := hfS j (by omega)
          have hE := hfE j (by omega) (by omega)
          unfold TrimStartOK at hS
          unfold TrimEndOK at hE
          omega

/-- Witness for the trim-bounds theorem on a concrete ordered overlapping
pair. -/
theorem trim_samples_bounds_witness :
    ([boundsW1, boundsW2] : List Sample) ≠ [] ∧
    samplesOrdered [boundsW1, boundsW2] ∧
    (∀ s ∈ [boundsW1, boundsW2],
      s.positions_minor.length = s.positions_major.length) ∧
    trim_samples [boundsW1, boundsW2] =
      .ok [⟨0, 4, false, false⟩, ⟨1, 6, false, true⟩] ∧
    (∀ j, j < ([⟨0, 4, false, false⟩, ⟨1, 6, false, true⟩] : List TrimInfo).length →
      0 ≤ (([⟨0, 4, false, false⟩, ⟨1, 6, false, true⟩] : List TrimInfo).getD j
        default).start) :=
  ⟨by decide, by decide, by decide, by decide,
    fun j hj => ((trim_samples_bounds [boundsW1, boundsW2]
      [⟨0, 4, false, false⟩, ⟨1, 6, false, true⟩]
      (by decide) (by decide) (by decide) (by decide)).2 j hj).1⟩

/-- Transitivity of the lexicographic order on position pairs. -/
theorem pairLtP_trans {a b c : Int × Int} (h1 : pairLtP a b) (h2 : pairLtP b c) :
    pairLtP a c := by
  unfold pairLtP at *
  rcases h1 with h1 | ⟨h1a, h1b⟩ <;> rcases h2 with h2 | ⟨h2a, h2b⟩
  · exact Or.inl (lt_trans h1 h2)
  · exact Or.inl (h2a ▸ h1)
  · exact Or.inl (h1a ▸ h2)
  · exact Or.inr ⟨h1a.trans h2a, lt_trans h1b h2b⟩

/-- Characterisation of the `find_left` scan: it returns the last index whose
position pair does not break the scan, provided a break point exists. -/
theorem findLeftGo_spec (s : Sample) (t : Int × Int) (i1 : Nat) :
    ∀ (n c : Nat), c ≤ i1 + 1 → i1 + 1 < c + n →
    (∀ j : Nat, c ≤ j → j ≤ i1 → ¬ pairLtP t (s.get_position j)) →
    pairLtP t (s.get_position ((i1 : Int) + 1)) →
    findLeftGo s t n (c : Int) = (i1 : Int) := by
  intro n
  induction n with
  | zero => intro c h1 h2 _ _; omega
  | succ n ih =>
      intro c h1 h2 hno hbr
      unfold findLeftGo
      by_cases hc : c = i1 + 1
      · subst hc
        rw [if_pos (by rwa [show ((i1 + 1 : Nat) : Int) = (i1 : Int) + 1 by push_cast; ring])]
        push_cast
        ring
      · have hc' : c ≤ i1 := by omega
        rw [if_neg (hno c le_rfl hc'), show ((c : Int) + 1) = ((c + 1 : Nat) : Int) by
          push_cast; ring]
        exact ih (c + 1) (by omega) (by omega)
          (fun j hj1 hj2 => hno j (by omega) hj2) hbr

/-- Characterisation of the `find_right` scan: it returns one past the first
index whose position pair is at least the target. -/
theorem findRightGo_spec (s : Sample) (t : Int × Int) (k : Nat) :
    ∀ (n c : Nat), c ≤ k → k < c + n →
    (∀ j : Nat, c ≤ j → j < k → ¬ pairLeP t (s.get_position j)) →
    pairLeP t (s.get_position (k : Int)) →
    findRightGo s t n (c : Int) = (k : Int) + 1 := by
  intro n
  induction n with
  | zero => intro c h1 h2 _ _; omega
  | succ n ih =>
      intro c h1 h2 hno hge
      unfold findRightGo
      by_cases hc : c = k
      · subst hc
        rw [if_pos hge]
      · have hc' : c < k := by omega
        rw [if_neg (hno c le_rfl hc'), show ((c : Int) + 1) = ((c + 1 : Nat) : Int) by
          push_cast; ring]
        exact ih (c + 1) (by omega) (by omega)
          (fun j hj1 hj2 => hno j (by omega) hj2) hge

/-- Pointwise equality of two index ranges makes the `compare_subvectors`
element loop succeed. -/
theorem compareRun_of_eq (a b : List Int) :
    ∀ (n : Nat) (ia ib : Int),
    (∀ m : Nat, m < n → intAt a (ia + m) = intAt b (ib + m)) →
    compareRun a b n ia ib := by
  intro n
  induction n with
  | zero => intro ia ib _; trivial
  | succ n ih =>
      intro ia ib hin
      refine ⟨by simpa using hin 0 (by omega), ?_⟩
      refine ih (ia + 1) (ib + 1) ?_
      intro m hm
      have := hin (m + 1) (by omega)
      push_cast at this ⊢
      calc intAt a (ia + 1 + m) = intAt a (ia + (m + 1)) := by ring_nf
        _ = intAt b (ib + (m + 1)) := this
        _ = intAt b (ib + 1 + m) := by ring_nf

/-- Claim C4 (amended): for a `ForwardOverlap` pair whose minor sub-sequences
over the overlap match element-wise, the cut point is the midpoint, where
`i1` is the last index of `s1` whose position pair is `≤ s2`'s first position
and `i2 = k + 1` is ONE PAST the first index `k` of `s2` whose position pair
is `≥ s1`'s last position: `trim1.end = i1 + ⌊ovl/2⌋` and
`trim2.start = i2 - ⌈ovl/2⌉` with `ovl = i2`. -/
theorem overlap_indices_midpoint (s1 s2 : Sample)
    (hm1 : s1.positions_minor.length = s1.positions_major.length)
    (hm2 : s2.positions_minor.length = s2.positions_major.length)
    (hsorted1 : posSorted s1)
    (hrel : relative_position s1 s2 = .FORWARD_OVERLAP)
    (i1 k : Nat)
    (hi1r : i1 + 1 < s1.positions_major.length)
    (hi1le : pairLeP (s1.get_position (i1 : Int)) (s2.get_position 0))
    (hi1gt : ∀ j : Nat, j < s1.positions_major.length → i1 < j →
      pairLtP (s2.get_position 0) (s1.get_position (j : Int)))
    (hk : k < s2.positions_major.length)
    (hkbefore : ∀ j : Nat, j < k →
      pairLtP (s2.get_position (j : Int)) s1.get_last_position)
    (hkge : pairLeP s1.get_last_position (s2.get_position (k : Int)))
    (hminor : s1.positions_minor.drop i1 = s2.positions_minor.take (k + 1)) :
    overlap_indices s1 s2 =
      .ok ((i1 : Int) + ((k : Int) + 1) / 2,
        ((k : Int) + 1) - (((k : Int) + 1) - ((k : Int) + 1) / 2), false) := by
  -- the `find_left` scan stops exactly at `i1`
  have hbr : pairLtP (s2.get_position 0) (s1.get_position ((i1 : Int) + 1)) := by
    have := hi1gt (i1 + 1) hi1r (by omega)
    rwa [show ((i1 + 1 : Nat) : Int) = (i1 : Int) + 1 by push_cast; ring] at this
  have hno : ∀ j : Nat, 0 ≤ j → j ≤ i1 →
      ¬ pairLtP (s2.get_position 0) (s1.get_position (j : Int)) := by
    intro j _ hj hcon
    rcases Nat.lt_or_ge j i1 with hlt | hge
    · exact hi1le (pairLtP_trans hcon (hsorted1 i1 (by omega) j hlt))
    · have hji : j = i1 := by omega
      subst hji
      exact hi1le hcon
  have hfl : find_left s1 (s2.get_position 0) = (i1 : Int) := by
    unfold find_left
    have := findLeftGo_spec s1 (s2.get_position 0) i1 s1.positions_major.length 0
      (by omega) (by omega) hno hbr
    simpa using this
  have hfr : find_right s2 s1.get_last_position = (k : Int) + 1 := by
    unfold find_right
    have := findRightGo_spec s2 s1.get_last_position k s2.positions_major.length 0
      (by omega) (by omega) (fun j _ h2 hle => hle (hkbefore j h2)) hkge
    simpa using this
  -- length bookkeeping from the element-wise match of the minor sub-sequences
  have hminlen0 := congrArg List.length hminor
  rw [List.length_drop, List.length_take] at hminlen0
  have hklen : k + 1 ≤ s2.positions_minor.length := by omega
  have hminlen : s1.positions_minor.length - i1 = k + 1 := by omega
  have hi1lt : i1 < s1.positions_minor.length := by omega
  -- element-wise equality of the compared ranges
  have hel : ∀ m : Nat, m < k + 1 →
      intAt s1.positions_minor ((i1 : Int) + m) = intAt s2.positions_minor (0 + m) := by
    intro m hm
    have ha : i1 + m < s1.positions_minor.length := by omega
    have hb : m < s2.positions_minor.length := by omega
    have e1 : (s1.positions_minor.drop i1).getD m 0 =
        s1.positions_minor.getD (i1 + m) 0 := by
      rw [List.getD_eq_getElem _ _ (by rw [List.length_drop]; omega),
        List.getD_eq_getElem _ _ ha]
      exact List.getElem_drop ..
    have e2 : (s2.positions_minor.take (k + 1)).getD m 0 =
        s2.positions_minor.getD m 0 := by
      rw [List.getD_eq_getElem _ _ (by rw [List.length_take]; omega),
        List.getD_eq_getElem _ _ hb]
      exact List.getElem_take ..
    unfold intAt
    rw [show ((i1 : Int) + m).toNat = i1 + m by omega,
      show ((0 : Int) + m).toNat = m by omega, ← e1, ← e2, hminor]
  -- the compare_subvectors call succeeds
  have hcmp : compare_subvectors s1.positions_minor (i1 : Int)
      (s1.positions_minor.length : Int) s2.positions_minor 0 ((k : Int) + 1) := by
    unfold compare_subvectors
    rw [if_neg (by omega)]
    rw [show ((s1.positions_minor.length : Int) - (i1 : Int)).toNat = k + 1 by omega]
    exact compareRun_of_eq _ _ (k + 1) (i1 : Int) 0 hel
  -- assemble the midpoint result
  unfold overlap_indices
  simp only []
  rw [hrel, if_neg (by decide), if_neg (by simp), hfl, hfr,
    if_neg (by omega), if_pos hcmp, if_neg (by omega)]

/-- Witness for the amended midpoint rule on a concrete overlapping pair whose
second sample contains the first sample's last position. -/
theorem overlap_indices_midpoint_witness :
    (overlapW1.positions_minor.length = overlapW1.positions_major.length ∧
      overlapW2.positions_minor.length = overlapW2.positions_major.length ∧
      posSorted overlapW1 ∧
      relative_position overlapW1 overlapW2 = .FORWARD_OVERLAP ∧
      overlapW1.positions_minor.drop 2 = overlapW2.positions_minor.take 2) ∧
    overlap_indices overlapW1 overlapW2 =
      .ok ((2 : Int) + ((1 : Int) + 1) / 2,
        ((1 : Int) + 1) - (((1 : Int) + 1) - ((1 : Int) + 1) / 2), false) :=
  ⟨by decide,
    overlap_indices_midpoint overlapW1 overlapW2 (by decide) (by decide) (by decide)
      (by decide) 2 1 (by decide) (by decide)
      (by decide) (by decide) (by decide) (by decide) (by decide)⟩

/-- Counterexample to claim C4 as stated: a `ForwardOverlap` pair whose minor
sub-sequences (cut at the claim's `i2` = first index of `s2` strictly past
`s1`'s last position) are element-wise equal, yet the code returns the
endpoint pair `(len(s1), 0)` via the heuristic, not the claimed midpoint
`(i1 + ⌊ovl/2⌋, i2 − ⌈ovl/2⌉) = (2, 1)`. -/
theorem overlap_indices_claimed_midpoint_counterexample :
    relative_position overlapCX1 overlapCX2 = .FORWARD_OVERLAP ∧
    pairLeP (overlapCX1.get_position 1) (overlapCX2.get_position 0) ∧
    (∀ j : Nat, j < 3 → 1 < j →
      pairLtP (overlapCX2.get_position 0) (overlapCX1.get_position (j : Int))) ∧
    pairLtP overlapCX1.get_last_position (overlapCX2.get_position 2) ∧
    (∀ j : Nat, j < 2 →
      ¬ pairLtP overlapCX1.get_last_position (overlapCX2.get_position (j : Int))) ∧
    overlapCX1.positions_minor.drop 1 = overlapCX2.positions_minor.take 2 ∧
    overlap_indices overlapCX1 overlapCX2 = .ok (3, 0, true) ∧
    ¬ ((3 : Int) = 1 + 2 / 2 ∧ (0 : Int) = 2 - (2 - 2 / 2)) := by
  decide

/-- Claim C9: whenever the requested overlap is at least the window length,
region planning fails with the configuration error (modelled by `none`) and
produces no windows. -/
theorem create_windows_invalid_overlap (seq_id seq_start seq_end seq_len
    window_len window_overlap region_id : Int)
    (h : window_overlap ≥ window_len) :
    create_windows seq_id seq_start seq_end seq_len window_len window_overlap
      region_id = none := by
  unfold create_windows
  rw [if_pos h]

/-- Witness for the invalid-overlap theorem at a concrete configuration. -/
theorem create_windows_invalid_overlap_witness :
    (5 : Int) ≥ 5 ∧
    create_windows 0 0 100 100 5 5 (-1) = none :=
  ⟨by decide, create_windows_invalid_overlap 0 0 100 100 5 5 (-1) (by decide)⟩

/-- Claim C10: `split_samples` called with `chunk_len = chunk_overlap = 1` on
a sample of two columns passes its own precondition check (so no
`Except.error` is returned), yet its sliding-window loop steps by zero and
never terminates: at every fuel the execution is still unfinished. -/
theorem split_samples_infinite_loop :
    ∀ fuel : Nat, split_samples [loopSample] 1 1 fuel = none := by
  have hloop : ∀ f : Nat, ∀ endv : Int,
      splitLoopGo loopSample 1 0 2 f 0 endv = none := by
    intro f
    induction f with
    | zero => intro endv; rfl
    | succ f ih =>
        intro endv
        unfold splitLoopGo
        rw [if_pos (by norm_num)]
        rw [show (0 : Int) + 0 = 0 by ring, ih (0 + 1)]
  intro fuel
  have h1 : split_sample_one loopSample 1 1 fuel = none := by
    unfold split_sample_one
    rw [if_neg (by decide)]
    simp only []
    rw [show (1 : Int) - 1 = 0 by ring, show loopSample.len - 1 + 1 = 2 by decide,
      hloop fuel 0]
  have h2 : splitSamplesFold 1 1 fuel [loopSample] = none := by
    unfold splitSamplesFold
    rw [h1]
  unfold split_samples
  rw [if_neg (by omega), h2]

/-- Re-joining a dropped-then-taken slice with the remaining drop. -/
theorem drop_take_append_drop (l : List Int) (a b : Nat) (h : a ≤ b) :
    (l.drop a).take (b - a) ++ l.drop b = l.drop a := by
  have hd : l.drop b = (l.drop a).drop (b - a) := by
    rw [List.drop_drop]
    congr 1
    omega
  rw [hd, List.take_append_drop]

/-- The slicing loop of `split_sample_on_discontinuities` preserves the
position vectors: concatenating the fragments restores the tail of the
original vectors. -/
theorem splitPiecesGo_content (sample : Sample)
    (hlen : sample.positions_minor.length = sample.positions_major.length) :
    ∀ (gaps : List Nat) (start : Nat),
      gaps.Pairwise (· < ·) → (∀ g ∈ gaps, start ≤ g) →
      ((splitPiecesGo sample start gaps).flatMap (·.positions_major) =
        sample.positions_major.drop start) ∧
      ((splitPiecesGo sample start gaps).flatMap (·.positions_minor) =
        sample.positions_minor.drop start) := by
  intro gaps
  induction gaps with
  | nil =>
      intro start _ _
      unfold splitPiecesGo
      by_cases hs : start < sample.positions_major.length
      · rw [if_pos hs]
        constructor
        · simp only [List.flatMap_cons, List.flatMap_nil, List.append_nil, mkPiece,
            sliceN]
          exact List.take_of_length_le (by simp)
        · simp only [List.flatMap_cons, List.flatMap_nil, List.append_nil, mkPiece,
            sliceN]
          exact List.take_of_length_le (by simp [hlen])
      · rw [if_neg hs]
        constructor
        · simp only [List.flatMap_nil]
          exact (List.drop_eq_nil_of_le (by omega)).symm
        · simp only [List.flatMap_nil]
          exact (List.drop_eq_nil_of_le (by omega)).symm
  | cons g rest ih =>
      intro start hpw hstart
      have hsg : start ≤ g := hstart g (by simp)
      have ihr := ih g hpw.of_cons
        (fun x hx => le_of_lt (List.rel_of_pairwise_cons hpw hx))
      unfold splitPiecesGo
      constructor
      · simp only [List.flatMap_cons, mkPiece, sliceN]
        rw [ihr.1]
        exact drop_take_append_drop _ start g hsg
      · simp only [List.flatMap_cons, mkPiece, sliceN]
        rw [ihr.2]
        exact drop_take_append_drop _ start g hsg

/-- Splitting on discontinuities preserves the content of both position
vectors. -/
theorem split_sample_content (sample : Sample)
    (hlen : sample.positions_minor.length = sample.positions_major.length) :
    ((split_sample_on_discontinuities sample).flatMap (·.positions_major) =
      sample.positions_major) ∧
    ((split_sample_on_discontinuities sample).flatMap (·.positions_minor) =
      sample.positions_minor) := by
  unfold split_sample_on_discontinuities
  simp only []
  by_cases hg : find_gaps sample.positions_major 1 = []
  · rw [if_pos hg]
    constructor <;> simp
  · rw [if_neg hg]
    have hpw : (find_gaps sample.positions_major 1).Pairwise (· < ·) :=
      List.Pairwise.filter _ (List.pairwise_lt_range _)
    have := splitPiecesGo_content sample hlen _ 0 hpw (fun g _ => Nat.zero_le g)
    simpa using this

/-- Fragments produced by the discontinuity split keep the length agreement
of their parent sample. -/
theorem split_sample_pieces_len (sample : Sample)
    (hlen : sample.positions_minor.length = sample.positions_major.length) :
    ∀ p ∈ split_sample_on_discontinuities sample,
      p.positions_minor.length = p.positions_major.length := by
  have hpiece : ∀ a b : Nat, (mkPiece sample a b).positions_minor.length =
      (mkPiece sample a b).positions_major.length := by
    intro a b
    simp [mkPiece, sliceN, hlen]
  have hgo : ∀ (gaps : List Nat) (start : Nat), ∀ p ∈ splitPiecesGo sample start gaps,
      p.positions_minor.length = p.positions_major.length := by
    intro gaps
    induction gaps with
    | nil =>
        intro start p hp
        unfold splitPiecesGo at hp
        split at hp
        · simp only [List.mem_singleton] at hp
          subst hp
          exact hpiece ..
        · exact absurd hp (by simp)
    | cons g rest ih =>
        intro start p hp
        unfold splitPiecesGo at hp
        rcases List.mem_cons.mp hp with hp | hp
        · subst hp
          exact hpiece ..
        · exact ih g p hp
  intro p hp
  unfold split_sample_on_discontinuities at hp
  simp only [] at hp
  split at hp
  · simp only [List.mem_singleton] at hp
    subst hp
    exact hlen
  · exact hgo _ 0 p hp

/-- The buffered fold of `merge_adjacent_samples` emits exactly the buffered
vectors followed by the vectors of the remaining non-empty samples. -/
theorem mergeGo_content :
    ∀ (ss : List Sample) (bufM bufN : List (List Int)) (sid rid le : Int),
      (bufM = [] → bufN = []) →
      ((mergeGo ss bufM bufN sid rid le).flatMap (·.positions_major) =
        bufM.flatten ++
          (ss.filter (fun s => !s.positions_major.isEmpty)).flatMap
            (·.positions_major)) ∧
      ((mergeGo ss bufM bufN sid rid le).flatMap (·.positions_minor) =
        bufN.flatten ++
          (ss.filter (fun s => !s.positions_major.isEmpty)).flatMap
            (·.positions_minor)) := by
  intro ss
  induction ss with
  | nil =>
      intro bufM bufN sid rid le hb
      unfold mergeGo
      by_cases hm : bufM = []
      · rw [if_neg (by simp [hm])]
        simp [hm, hb hm]
      · rw [if_pos hm]
        simp
  | cons s rest ih =>
      intro bufM bufN sid rid le hb
      unfold mergeGo
      by_cases he : s.positions_major = []
      · rw [if_pos he]
        have hfc : (s :: rest).filter (fun s => !s.positions_major.isEmpty) =
            rest.filter (fun s => !s.positions_major.isEmpty) :=
          List.filter_cons_of_neg (by simp [he])
        rw [hfc]
        exact ih bufM bufN sid rid le hb
      · have hfc : (s :: rest).filter (fun s => !s.positions_major.isEmpty) =
            s :: rest.filter (fun s => !s.positions_major.isEmpty) :=
          List.filter_cons_of_pos (by simp [he])
        rw [if_neg he]
        by_cases hcond : bufM = [] ∨
            (s.seq_id = sid ∧ s.region_id = rid ∧ s.start - le = 0)
        · rw [if_pos hcond]
          have := ih (bufM ++ [s.positions_major]) (bufN ++ [s.positions_minor])
            s.seq_id s.region_id s.end_ (by simp)
          rw [hfc]
          constructor
          · rw [this.1]
            simp [List.flatten_append, List.append_assoc]
          · rw [this.2]
            simp [List.flatten_append, List.append_assoc]
        · rw [if_neg hcond]
          have := ih [s.positions_major] [s.positions_minor]
            s.seq_id s.region_id s.end_ (by simp)
          rw [hfc]
          constructor
          · simp only [List.flatMap_cons]
            rw [this.1]
            simp [List.append_assoc]
          · simp only [List.flatMap_cons]
            rw [this.2]
            simp [List.append_assoc]

/-- Filtering out samples with empty majors does not change a concatenation
whose summand vanishes on them. -/
theorem filter_flatMap_eq (X : List Sample) (f : Sample → List Int)
    (h : ∀ s ∈ X, s.positions_major.isEmpty = true → f s = []) :
    (X.filter (fun s => !s.positions_major.isEmpty)).flatMap f = X.flatMap f := by
  induction X with
  | nil => rfl
  | cons s rest ih =>
      have ihr := ih (fun x hx hxe => h x (by simp [hx]) hxe)
      by_cases he : s.positions_major.isEmpty
      · rw [List.filter_cons_of_neg (by simp [he])]
        simp only [List.flatMap_cons, h s (by simp) he, List.nil_append]
        exact ihr
      · rw [List.filter_cons_of_pos (by simp [he])]
        simp only [List.flatMap_cons]
        rw [ihr]

/-- Concatenating the discontinuity-split fragments of every member of a
list restores the list's own concatenated position vectors. -/
theorem flatMap_split_content :
    ∀ fs : List Sample,
      (∀ s ∈ fs, s.positions_minor.length = s.positions_major.length) →
      ((fs.flatMap split_sample_on_discontinuities).flatMap
          (·.positions_major) = fs.flatMap (·.positions_major)) ∧
      ((fs.flatMap split_sample_on_discontinuities).flatMap
          (·.positions_minor) = fs.flatMap (·.positions_minor)) := by
  intro fs
  induction fs with
  | nil => intro _; exact ⟨rfl, rfl⟩
  | cons s rest ih =>
      intro h
      have hs := split_sample_content s (h s (by simp))
      have ihr := ih (fun x hx => h x (by simp [hx]))
      constructor
      · simp only [List.flatMap_cons, List.flatMap_append]
        rw [hs.1, ihr.1]
      · simp only [List.flatMap_cons, List.flatMap_append]
        rw [hs.2, ihr.2]

/-- Claim C8: splitting each fragment on major-position discontinuities and
then merging adjacent fragments preserves content — the concatenation of the
output samples' position vectors (majors and minors) equals the concatenation
of the position vectors of the non-empty input fragments. -/
theorem surgery_preserves_positions (fragments : List Sample)
    (hlen : ∀ s ∈ fragments,
      s.positions_minor.length = s.positions_major.length) :
    ((merge_adjacent_samples
        (fragments.flatMap split_sample_on_discontinuities)).flatMap
          (·.positions_major) =
      (fragments.filter (fun s => !s.positions_major.isEmpty)).flatMap
        (·.positions_major)) ∧
    ((merge_adjacent_samples
        (fragments.flatMap split_sample_on_discontinuities)).flatMap
          (·.positions_minor) =
      (fragments.filter (fun s => !s.positions_major.isEmpty)).flatMap
        (·.positions_minor)) := by
  have hX : ∀ s ∈ fragments.flatMap split_sample_on_discontinuities,
      s.positions_minor.length = s.positions_major.length := by
    intro p hp
    obtain ⟨s, hs, hps⟩ := List.mem_flatMap.mp hp
    exact split_sample_pieces_len s (hlen s hs) p hps
  have hmerge := mergeGo_content (fragments.flatMap split_sample_on_discontinuities)
    [] [] (-1) (-1) (-1) (fun _ => rfl)
  have hsplit := flatMap_split_content fragments hlen
  have hXfilM := filter_flatMap_eq (fragments.flatMap split_sample_on_discontinuities)
    (·.positions_major) (fun s _ he => by simpa using he)
  have hXfilN := filter_flatMap_eq (fragments.flatMap split_sample_on_discontinuities)
    (·.positions_minor) (fun s hs he => by
      have := hX s hs
      have hmaj : s.positions_major = [] := by simpa using he
      simp only []
      exact List.length_eq_zero.mp (by simp [this, hmaj]))
  have hFfilM := filter_flatMap_eq fragments
    (·.positions_major) (fun s _ he => by simpa using he)
  have hFfilN := filter_flatMap_eq fragments
    (·.positions_minor) (fun s hs he => by
      have := hlen s hs
      have hmaj : s.positions_major = [] := by simpa using he
      simp only []
      exact List.length_eq_zero.mp (by simp [this, hmaj]))
  constructor
  · rw [show merge_adjacent_samples (fragments.flatMap split_sample_on_discontinuities)
        = mergeGo (fragments.flatMap split_sample_on_discontinuities)
            [] [] (-1) (-1) (-1) from rfl,
      hmerge.1, hXfilM, hsplit.1, hFfilM]
    simp
  · rw [show merge_adjacent_samples (fragments.flatMap split_sample_on_discontinuities)
        = mergeGo (fragments.flatMap split_sample_on_discontinuities)
            [] [] (-1) (-1) (-1) from rfl,
      hmerge.2, hXfilN, hsplit.2, hFfilN]
    simp

/-- `getLastD` returns the default or a member. -/
theorem getLastD_int_mem_or (l : List Int) :
    ∀ d : Int, l.getLastD d = d ∨ l.getLastD d ∈ l := by
  induction l with
  | nil => intro d; exact Or.inl rfl
  | cons a t ih =>
      intro d
      rw [List.getLastD_cons]
      rcases ih a with h0 | hm
      · exact Or.inr (by rw [h0]; exact List.mem_cons_self a t)
      · exact Or.inr (List.mem_cons_of_mem a hm)

/-- A positive `intAt` value is a member, hence below any bound that holds
for all members. -/
theorem intAt_bound (l : List Int) (i : Int) (B : Int)
    (hB : ∀ m ∈ l, 0 ≤ m ∧ m < B) (hpos : 0 < intAt l i) : intAt l i < B := by
  unfold intAt at hpos ⊢
  by_cases hi : i.toNat < l.length
  · rw [List.getD_eq_getElem _ _ hi]
    exact (hB _ (List.getElem_mem hi)).2
  · rw [List.getD_eq_default _ _ (by omega)] at hpos
    exact absurd hpos (by omega)

/-- The stitching walk equals the accumulator followed by the specification
shape, provided every sample position is a valid draft coordinate and the
walk starts at or after draft coordinate `-1`. -/
theorem stitchGo_spec (draft : List Char) (samples : List Sample)
    (trims : List TrimInfo) (sample_results : List ConsensusResult)
    (hmaj : ∀ s ∈ samples, ∀ m ∈ s.positions_major,
      0 ≤ m ∧ m < (draft.length : Int)) :
    ∀ (sfs : List (Int × Nat)) (acc : ConsensusResult) (last_end : Int),
      -1 ≤ last_end →
      stitchGo draft samples trims sample_results sfs acc last_end =
        ⟨acc.seq ++ (stitchSpec draft samples trims sample_results sfs last_end).seq,
          acc.quals ++
            (stitchSpec draft samples trims sample_results sfs last_end).quals⟩ := by
  intro sfs
  induction sfs with
  | nil =>
      intro acc last_end hle
      unfold stitchGo stitchSpec
      by_cases hc : last_end + 1 < (draft.length : Int)
      · simp only [if_pos hc]
        have hlen2 : List.replicate ((draft.length : Int) - last_end - 1).toNat '!'
            = List.replicate (draft.drop (last_end + 1).toNat).length '!' := by
          rw [List.length_drop]
          congr 1
          omega
        rw [hlen2]
      · simp only [if_neg hc]
        simp
  | cons it rest ih =>
      intro acc last_end hle
      have hs_bounds : ∀ m ∈ (samples.getD it.2 emptySample).positions_major,
          0 ≤ m ∧ m < (draft.length : Int) := by
        by_cases hj : it.2 < samples.length
        · exact hmaj _ (getD_sample_mem samples it.2 hj)
        · rw [List.getD_eq_default _ _ (by omega)]
          intro m hm
          exact absurd hm (by simp [emptySample])
      have hnext : -1 ≤ (samples.getD it.2 emptySample).positions_major.getLastD 0 := by
        rcases getLastD_int_mem_or (samples.getD it.2 emptySample).positions_major 0
          with h0 | hm
        · omega
        · have := hs_bounds _ hm
          omega
      unfold stitchGo stitchSpec
      simp only []
      rw [ih _ _ hnext]
      by_cases hc : last_end + 1 < intAt (samples.getD it.2 emptySample).positions_major
          (trims.getD it.2 default).start
      · have hsp : intAt (samples.getD it.2 emptySample).positions_major
            (trims.getD it.2 default).start < (draft.length : Int) :=
          intAt_bound _ _ _ hs_bounds (by omega)
        have hrep : (substr draft (last_end + 1)
            (intAt (samples.getD it.2 emptySample).positions_major
              (trims.getD it.2 default).start - last_end - 1)).length =
            (intAt (samples.getD it.2 emptySample).positions_major
              (trims.getD it.2 default).start - last_end - 1).toNat := by
          simp only [substr, List.length_take, List.length_drop]
          omega
        simp only [if_pos hc]
        rw [hrep]
        simp only [List.append_assoc]
      · simp only [if_neg hc]
        simp only [List.append_assoc, List.nil_append, List.length_nil,
          List.replicate_zero]

/-- Claim C6: stitching fills every uncovered draft coordinate from the draft
with `!` qualities. The right-hand side `stitchSpec` makes the fills explicit:
with no samples it is the whole draft under all-`!` qualities of equal length,
each sample whose first trimmed column starts past `last_end + 1` is preceded
by the intervening draft slice under equal-length `!` qualities, and the
uncovered draft tail is appended under `!` qualities of the tail's length. -/
theorem stitch_sequence_fills_gaps (draft : List Char) (samples : List Sample)
    (trims : List TrimInfo) (sample_results : List ConsensusResult)
    (sfs : List (Int × Nat))
    (hlen : samples.length = trims.length)
    (hmaj : ∀ s ∈ samples, ∀ m ∈ s.positions_major,
      0 ≤ m ∧ m < (draft.length : Int)) :
    stitch_sequence draft samples trims sample_results sfs =
      .ok (stitchSpec draft samples trims sample_results sfs (-1)) := by
  unfold stitch_sequence
  rw [if_neg (by simp [hlen])]
  by_cases hsf : sfs = []
  · rw [if_pos hsf]
    subst hsf
    unfold stitchSpec
    by_cases hc : (-1 : Int) + 1 < (draft.length : Int)
    · simp only [if_pos hc]
      have h0 : ((-1 : Int) + 1).toNat = 0 := by decide
      rw [h0]
      simp
    · simp only [if_neg hc]
      have hd : draft = [] := List.length_eq_zero.mp (by omega)
      rw [hd]
  · rw [if_neg hsf]
    rw [stitchGo_spec draft samples trims sample_results hmaj sfs ⟨[], []⟩ (-1)
      (by omega)]
    simp only [List.nil_append]

/-- Claim C1 (amended): both decoders derive the chosen-class value by
gathering the RAW logits at the argmax index — no softmax is applied — and
each quality code is `clamp(-10*log10(1 - p_chosen), 0, cap) + 33` on that
raw value, with cap 40 on the consensus-decoding path
(`CountsFeatureDecoder::decode_bases`) and cap 70 on the variant-calling
path (`decode_bases_impl`). -/
theorem decode_bases_raw_gather_quals (batch : List (List (List ℚ))) :
    (batch.map CountsFeatureDecoder_decode_quals =
      batch.map (fun sample => sample.map
        (fun row => phred_char_code 40 ((row.getD (argmaxIdx row) 0 : ℚ) : ℝ)))) ∧
    (batch.map decode_bases_impl_quals =
      batch.map (fun sample => sample.map
        (fun row => phred_char_code 70 ((row.getD (argmaxIdx row) 0 : ℚ) : ℝ)))) := by
  constructor <;>
    simp [CountsFeatureDecoder_decode_quals, decode_bases_impl_quals, gather_probs,
      List.map_map, Function.comp]

/-- The claimed softmax step is refuted: on the one-row sample with logits
`[1, 0, 0, 0, 0]` the consensus decoder emits the cap-saturated quality code
73 (the gathered raw logit is 1, so `1 - p = 0`), whereas the softmax-based
quality of the specification is strictly below 73 (the softmax probability is
`e / (e + 4) < 1`). -/
theorem decode_bases_softmax_counterexample :
    CountsFeatureDecoder_decode_quals [[1, 0, 0, 0, 0]] = [73] ∧
    ∀ q ∈ spec_decode_quals 40 [[1, 0, 0, 0, 0]], q < 73 := by
  constructor
  · have hgp : gather_probs [[(1 : ℚ), 0, 0, 0, 0]] = [1] := rfl
    unfold CountsFeatureDecoder_decode_quals
    rw [hgp]
    simp only [List.map_cons, List.map_nil]
    have hph : phred_char_code 40 (((1 : ℚ) : ℝ)) = 73 := by
      unfold phred_char_code
      rw [if_pos (by norm_num)]
      have hfl : ⌊(40 : ℝ)⌋ = 40 := by
        rw [show (40 : ℝ) = ((40 : ℤ) : ℝ) by norm_num]
        exact Int.floor_intCast 40
      omega
    rw [hph]
  · intro q hq
    unfold spec_decode_quals at hq
    simp only [List.map_cons, List.map_nil, List.mem_singleton] at hq
    subst hq
    have hepos : (0 : ℝ) < Real.exp 1 := Real.exp_pos 1
    have helt : Real.exp 1 < 2.7182818286 := Real.exp_one_lt_d9
    have hp : softmax_gather [(1 : ℚ), 0, 0, 0, 0] =
        Real.exp 1 / (Real.exp 1 + 4) := by
      unfold softmax_gather
      have hidx : (([(1 : ℚ), 0, 0, 0, 0].getD
          (argmaxIdx [(1 : ℚ), 0, 0, 0, 0]) 0 : ℚ)) = 1 := rfl
      rw [hidx]
      simp [Real.exp_zero]
      ring_nf
    have hplt : softmax_gather [(1 : ℚ), 0, 0, 0, 0] < 1 := by
      rw [hp, div_lt_one (by linarith)]
      linarith
    have h1mp : 1 - softmax_gather [(1 : ℚ), 0, 0, 0, 0] =
        4 / (Real.exp 1 + 4) := by
      rw [hp]
      field_simp
    have hXlt : -10 * Real.logb 10 (4 / (Real.exp 1 + 4)) < 40 := by
      have h10 : (1 : ℝ) < 10 := by norm_num
      have hxpos : (0 : ℝ) < 4 / (Real.exp 1 + 4) := by positivity
      have hlogb : (-4 : ℝ) < Real.logb 10 (4 / (Real.exp 1 + 4)) := by
        rw [Real.lt_logb_iff_rpow_lt h10 hxpos]
        have hten : (10 : ℝ) ^ ((-4 : ℝ)) = 1 / 10000 := by
          rw [show ((-4 : ℝ)) = -((4 : ℕ) : ℝ) by norm_num,
            Real.rpow_neg (by norm_num), Real.rpow_natCast]
          norm_num
        rw [hten, div_lt_div_iff₀ (by norm_num) (by linarith)]
        linarith
      linarith
    have hfl : ⌊min (max (-10 * Real.logb 10
        (1 - softmax_gather [(1 : ℚ), 0, 0, 0, 0])) 0) 40⌋ < 40 := by
      rw [h1mp]
      apply Int.floor_lt.mpr
      push_cast
      exact lt_of_le_of_lt (min_le_left _ _) (max_lt hXlt (by norm_num))
    unfold phred_char_code
    rw [if_neg (not_le.mpr hplt)]
    omega

/-- Concrete instance of `stitch_sequence_fills_gaps`: one sample covering
draft columns 1–2 of a four-base draft, so the stitcher fills column 0 and
the tail 3 from the draft with `!` qualities. -/
theorem stitch_sequence_fills_gaps_witness :
    (([⟨[1, 2], [0, 0], 0, 0⟩] : List Sample).length =
        ([⟨0, 2, false, true⟩] : List TrimInfo).length) ∧
    stitch_sequence ['A', 'C', 'G', 'T'] [⟨[1, 2], [0, 0], 0, 0⟩]
        [⟨0, 2, false, true⟩] [⟨['C', 'C'], ['#', '#']⟩] [((0 : Int), (0 : Nat))] =
      .ok (stitchSpec ['A', 'C', 'G', 'T'] [⟨[1, 2], [0, 0], 0, 0⟩]
        [⟨0, 2, false, true⟩] [⟨['C', 'C'], ['#', '#']⟩]
        [((0 : Int), (0 : Nat))] (-1)) :=
  ⟨rfl, stitch_sequence_fills_gaps _ _ _ _ _ rfl (by decide)⟩

/-- Every run reported by the run-length scan is non-empty and ends within
the consumed prefix. -/
theorem rleGo_bounds : ∀ (rest : List Bool) (start i : Nat) (v : Bool),
    start < i → ∀ t ∈ rleGo rest start i v, t.1 < t.2.1 ∧ t.2.1 ≤ i + rest.length := by
  intro rest
  induction rest with
  | nil =>
      intro start i v hsi t ht
      simp only [rleGo, List.mem_singleton] at ht
      subst ht
      exact ⟨hsi, by simp⟩
  | cons x rest ih =>
      intro start i v hsi t ht
      unfold rleGo at ht
      by_cases hx : x = v
      · rw [if_pos hx] at ht
        have h := ih start (i + 1) v (by omega) t ht
        exact ⟨h.1, by simp only [List.length_cons]; omega⟩
      · rw [if_neg hx] at ht
        rcases List.mem_cons.mp ht with h | h
        · subst h
          exact ⟨hsi, by simp only [List.length_cons]; omega⟩
        · have h2 := ih i (i + 1) x (by omega) t h
          exact ⟨h2.1, by simp only [List.length_cons]; omega⟩

/-- Run bounds for `run_length_encode`. -/
theorem run_length_encode_bounds (l : List Bool) :
    ∀ t ∈ run_length_encode l, t.1 < t.2.1 ∧ t.2.1 ≤ l.length := by
  cases l with
  | nil => intro t ht; simp [run_length_encode] at ht
  | cons x rest =>
      intro t ht
      unfold run_length_encode at ht
      have h := rleGo_bounds rest 0 1 x (by omega) t ht
      exact ⟨h.1, by simp only [List.length_cons]; omega⟩

/-- `setTrueRange` preserves the vector length. -/
theorem setTrueRange_length (l : List Bool) (a b : Nat) :
    (setTrueRange l a b).length = l.length := by
  simp [setTrueRange]

/-- The `variant_columns` loop preserves the result-vector length. -/
theorem vcGo_length (minor : List Int) (reference prediction : List Char) :
    ∀ (idxs : List Nat) (ret : List Bool) (il : Nat) (iv : Bool),
      (vcGo minor reference prediction idxs ret il iv).1.length = ret.length := by
  intro idxs
  induction idxs with
  | nil => intro ret il iv; rfl
  | cons i rest ih =>
      intro ret il iv
      unfold vcGo
      by_cases hm : minor.getD i 0 = 0
      · rw [if_pos hm]
        simp only []
        rw [ih]
        rw [List.length_set]
        split
        · exact setTrueRange_length ..
        · rfl
      · rw [if_neg hm]
        exact ih ..

/-- Length facts of a successful `variant_columns` run. -/
theorem variant_columns_length (minor : List Int) (reference prediction : List Char)
    (isv : List Bool) (h : variant_columns minor reference prediction = .ok isv) :
    isv.length = prediction.length ∧ minor.length = reference.length ∧
      reference.length = prediction.length := by
  unfold variant_columns at h
  split at h
  · exact Except.noConfusion h
  · rename_i hlen
    rw [not_not] at hlen
    injection h with h'
    refine ⟨?_, hlen.1, hlen.2⟩
    rw [← h']
    split
    · rw [setTrueRange_length, vcGo_length, List.length_set, List.length_replicate]
    · rw [vcGo_length, List.length_set, List.length_replicate]

/-- Length facts of a successful `extract_draft_with_gaps`. -/
theorem extract_draft_with_gaps_ok (draft : List Char)
    (positions_major positions_minor : List Int) (reference : List Char)
    (h : extract_draft_with_gaps draft positions_major positions_minor =
      .ok reference) :
    positions_major.length = positions_minor.length ∧
      reference.length = positions_major.length := by
  unfold extract_draft_with_gaps at h
  split at h
  · exact Except.noConfusion h
  · rename_i hne
    rw [not_not] at hne
    injection h with h'
    refine ⟨hne, ?_⟩
    rw [← h', List.length_zipWith]
    omega

/-- Claim C7: every variant emitted by `decode_variants` has distinct
reference and alternative alleles — also after the anchor-base prepend on
runs starting at an insertion column — and, provided the sample's major
coordinates are valid draft positions, an anchor position inside
`[0, len(draft))`. -/
theorem decode_variants_sound (vc : VariantCallingSample) (draft : List Char)
    (ambig_ref gvcf : Bool) (variants : List Variant)
    (hdraft : ∀ m ∈ vc.sample.positions_major, 0 ≤ m ∧ m < (draft.length : Int))
    (hok : decode_variants vc draft ambig_ref gvcf = .ok variants) :
    ∀ v ∈ variants, v.ref ≠ v.alt ∧ 0 ≤ v.pos ∧ v.pos < (draft.length : Int) := by
  unfold decode_variants at hok
  split at hok
  · injection hok with h'
    intro v hv
    rw [← h'] at hv
    exact absurd hv (by simp)
  · split at hok
    · exact Except.noConfusion hok
    · simp only [] at hok
      split at hok
      · exact Except.noConfusion hok
      · rename_i reference hext
        split at hok
        · exact Except.noConfusion hok
        · rename_i is_variant hvc
          injection hok with h'
          intro v hv
          rw [← h'] at hv
          obtain ⟨r, hr, hfr⟩ := List.mem_filterMap.mp hv
          have hb := run_length_encode_bounds is_variant r hr
          have hlen1 := variant_columns_length _ _ _ _ hvc
          have hlen2 := extract_draft_with_gaps_ok _ _ _ _ hext
          have hrmaj : (r.1 : Int) < (vc.sample.positions_major.length : Int) := by
            omega
          have hmem := intAt_mem vc.sample.positions_major (r.1 : Int)
            (by omega) hrmaj
          have hbounds := hdraft _ hmem
          split at hfr
          · exact Option.noConfusion hfr
          · split at hfr
            · exact Option.noConfusion hfr
            · rename_i hne
              split at hfr
              · exact Option.noConfusion hfr
              · split at hfr
                · injection hfr with hv'
                  subst hv'
                  refine ⟨?_, hbounds.1, hbounds.2⟩
                  simp only [ne_eq, List.cons.injEq, not_and]
                  intro _ hcontra
                  exact hne hcontra
                · injection hfr with hv'
                  subst hv'
                  exact ⟨hne, hbounds.1, hbounds.2⟩

/-- Concrete instance of `decode_variants_sound`: a three-column sample whose
middle columns disagree with the draft, yielding one substitution variant. -/
theorem decode_variants_sound_witness :
    (∀ m ∈ ([0, 1, 2] : List Int), 0 ≤ m ∧ m < ((['G', 'C', 'A'] : List Char).length : Int)) ∧
    (∀ v ∈ [(⟨7, 1, ['C', 'A'], ['T', 'C'], ['P', 'A', 'S', 'S']⟩ : Variant)],
      v.ref ≠ v.alt ∧ 0 ≤ v.pos ∧ v.pos < ((['G', 'C', 'A'] : List Char).length : Int)) :=
  ⟨by decide,
    decode_variants_sound
      ⟨⟨[0, 1, 2], [0, 0, 0], 7, 0⟩,
        [[0, 0, 0, 1, 0], [0, 0, 0, 0, 1], [0, 0, 1, 0, 0]]⟩
      ['G', 'C', 'A'] false false _ (by decide) (by decide)⟩

/-- The descending anchor search returns `k` when the anchor condition holds
at `k` and at no later index up to the search start. -/
theorem findAnchor_spec (minors : List Int) (call ref : List Char) (k : Nat)
    (hanchor : anchorCond minors call ref k) :
    ∀ m, (∀ j, k < j → j ≤ m → ¬ anchorCond minors call ref j) → k ≤ m →
      findAnchor minors call ref m = k := by
  intro m
  induction m with
  | zero =>
      intro _ hkm
      have hk0 : k = 0 := by omega
      subst hk0
      rfl
  | succ m ih =>
      intro hafter hkm
      unfold findAnchor
      by_cases hc : anchorCond minors call ref (m + 1)
      · rw [if_pos hc]
        by_cases hk : k = m + 1
        · omega
        · exact absurd hc (hafter (m + 1) (by omega) (by omega))
      · rw [if_neg hc]
        have hkm2 : k ≤ m := by
          by_cases hk : k = m + 1
          · exact absurd (hk ▸ hanchor) hc
          · omega
        exact ih (fun j hj1 hj2 => hafter j hj1 (by omega)) hkm2

/-- Claim C5 (amended): in the variant caller's rejoin step, a decoded sample
whose last anchor column — `minor == 0` and predicted base matching the
draft base — is `k` with `0 < k` is split at `k`: the columns strictly
before `k` are flushed (merged with the pending queue), and the remainder
starting at column `k` is queued for merging with the next sample. The
flushed slice excludes column `k` itself, contrary to the spec's
"everything up to and including `k`". -/
theorem join_samples_step (draft : List Char) (vc : VariantCallingSample)
    (rest ret queue : List VariantCallingSample) (dwg : List Char) (k : Nat)
    (hval : vc.sample.positions_minor.length = vc.sample.positions_major.length)
    (hlog : vc.logits.length = vc.sample.positions_major.length)
    (hdwg : extract_draft_with_gaps draft vc.sample.positions_major
      vc.sample.positions_minor = .ok dwg)
    (hk : 0 < k) (hkn : k < vc.sample.positions_major.length)
    (hanchor : anchorCond vc.sample.positions_minor (decode_bases_seq vc.logits)
      dwg k)
    (hafter : ∀ j, k < j → j < vc.sample.positions_major.length →
      ¬ anchorCond vc.sample.positions_minor (decode_bases_seq vc.logits) dwg j) :
    joinGo draft (vc :: rest) ret queue =
      joinGo draft rest
        (ret ++ merge_vc_samples (queue ++
          [⟨⟨vc.sample.positions_major.take k, vc.sample.positions_minor.take k,
              vc.sample.seq_id, vc.sample.region_id⟩, vc.logits.take k⟩]))
        [⟨⟨vc.sample.positions_major.drop k, vc.sample.positions_minor.drop k,
            vc.sample.seq_id, vc.sample.region_id⟩, vc.logits.drop k⟩] := by
  have hcall : (decode_bases_seq vc.logits).length =
      vc.sample.positions_major.length := by
    simp [decode_bases_seq, hlog]
  have hfind : findAnchor vc.sample.positions_minor (decode_bases_seq vc.logits)
      dwg (vc.sample.positions_major.length - 1) = k :=
    findAnchor_spec _ _ _ _ hanchor _
      (fun j hj1 hj2 => hafter j hj1 (by omega)) (by omega)
  have hcount : ¬ (((List.range (decode_bases_seq vc.logits).length).filter
      (fun j => check_is_diff ((decode_bases_seq vc.logits).getD j '~')
        (dwg.getD j '~'))).length = (decode_bases_seq vc.logits).length) := by
    have hlt := List.length_filter_lt_length_iff_exists.mpr
      (⟨k, by rw [List.mem_range]; omega, by
        simp only [hanchor.2]
        exact Bool.false_ne_true⟩ :
        ∃ x ∈ List.range (decode_bases_seq vc.logits).length,
          ¬ ((fun j => check_is_diff ((decode_bases_seq vc.logits).getD j '~')
            (dwg.getD j '~')) x = true))
    rw [List.length_range] at hlt
    omega
  have hleft : slice_vc_sample vc 0 (k : Int) =
      .ok ⟨⟨vc.sample.positions_major.take k, vc.sample.positions_minor.take k,
        vc.sample.seq_id, vc.sample.region_id⟩, vc.logits.take k⟩ := by
    unfold slice_vc_sample
    simp only []
    rw [if_neg (by simp only [Sample.len, ne_eq, not_not]; exact_mod_cast hlog),
      if_neg (by simp only [Sample.len]; omega)]
    simp [slice_sample, sliceZ, sliceQ]
  have hright : slice_vc_sample vc (k : Int) vc.sample.len =
      .ok ⟨⟨vc.sample.positions_major.drop k, vc.sample.positions_minor.drop k,
        vc.sample.seq_id, vc.sample.region_id⟩, vc.logits.drop k⟩ := by
    unfold slice_vc_sample
    simp only []
    rw [if_neg (by simp only [Sample.len, ne_eq, not_not]; exact_mod_cast hlog),
      if_neg (by simp only [Sample.len]; omega)]
    simp only [slice_sample, sliceZ, sliceQ, Sample.len, Int.toNat_natCast]
    have ht1 : (vc.sample.positions_major.drop k).take
        ((vc.sample.positions_major.length : Int) - (k : Int)).toNat =
        vc.sample.positions_major.drop k :=
      List.take_of_length_le (by simp only [List.length_drop]; omega)
    have ht2 : (vc.sample.positions_minor.drop k).take
        ((vc.sample.positions_major.length : Int) - (k : Int)).toNat =
        vc.sample.positions_minor.drop k :=
      List.take_of_length_le (by simp only [List.length_drop]; omega)
    have ht3 : (vc.logits.drop k).take
        ((vc.sample.positions_major.length : Int) - (k : Int)).toNat =
        vc.logits.drop k :=
      List.take_of_length_le (by simp only [List.length_drop]; omega)
    rw [ht1, ht2, ht3]
  conv_lhs => unfold joinGo
  rw [if_neg (by omega), if_neg (by omega)]
  simp only []
  rw [hdwg]
  simp only []
  rw [if_neg hcount, hfind, hleft, hright]
  simp only []
  rw [if_pos hk, if_neg (by simp)]

/-- Concrete instance of `join_samples_step`: anchor at column 2 of a
three-column sample. -/
theorem join_samples_step_witness :
    anchorCond [0, 0, 0]
      (decode_bases_seq [[0, 0, 0, 0, 1], [0, 0, 0, 0, 1], [0, 1, 0, 0, 0]])
      ['G', 'C', 'A'] 2 ∧
    joinGo ['G', 'C', 'A']
        [⟨⟨[0, 1, 2], [0, 0, 0], 3, 0⟩,
          [[0, 0, 0, 0, 1], [0, 0, 0, 0, 1], [0, 1, 0, 0, 0]]⟩] [] [] =
      joinGo ['G', 'C', 'A'] []
        ([] ++ merge_vc_samples ([] ++
          [⟨⟨([0, 1, 2] : List Int).take 2, ([0, 0, 0] : List Int).take 2, 3, 0⟩,
            ([[0, 0, 0, 0, 1], [0, 0, 0, 0, 1], [0, 1, 0, 0, 0]] :
              List (List ℚ)).take 2⟩]))
        [⟨⟨([0, 1, 2] : List Int).drop 2, ([0, 0, 0] : List Int).drop 2, 3, 0⟩,
          ([[0, 0, 0, 0, 1], [0, 0, 0, 0, 1], [0, 1, 0, 0, 0]] :
            List (List ℚ)).drop 2⟩] :=
  ⟨by decide,
    join_samples_step ['G', 'C', 'A']
      ⟨⟨[0, 1, 2], [0, 0, 0], 3, 0⟩,
        [[0, 0, 0, 0, 1], [0, 0, 0, 0, 1], [0, 1, 0, 0, 0]]⟩
      [] [] [] ['G', 'C', 'A'] 2 rfl rfl (by decide) (by decide) (by decide)
      (by decide)
      (by intro j hj1 hj2; simp only [List.length_cons, List.length_nil] at hj2; omega)⟩

/-- The flushed slice excludes the anchor column: with the last anchor at
column 2 (minor 0, predicted base equal to the draft base), `join_samples`
emits a first sample covering majors `[0, 1]` only — column 2 starts the
remainder — refuting the claim that everything up to and including the
anchor is flushed. -/
theorem join_samples_flush_excludes_anchor :
    join_samples
        [⟨⟨[0, 1, 2], [0, 0, 0], 3, 0⟩,
          [[0, 0, 0, 0, 1], [0, 0, 0, 0, 1], [0, 1, 0, 0, 0]]⟩] ['G', 'C', 'A'] =
      .ok [⟨⟨[0, 1], [0, 0], 3, 0⟩, [[0, 0, 0, 0, 1], [0, 0, 0, 0, 1]]⟩,
        ⟨⟨[2], [0], 3, 0⟩, [[0, 1, 0, 0, 0]]⟩] ∧
    anchorCond [0, 0, 0]
      (decode_bases_seq [[0, 0, 0, 0, 1], [0, 0, 0, 0, 1], [0, 1, 0, 0, 0]])
      ['G', 'C', 'A'] 2 ∧
    (2 : Int) ∉ ([0, 1] : List Int) := by
  refine ⟨by decide, by decide, by decide⟩

/-- Concrete instance of `surgery_preserves_positions`: two fragments, one
with a discontinuity and one empty. -/
theorem surgery_preserves_positions_witness :
    (∀ s ∈ ([⟨[0, 1, 5, 6], [0, 0, 0, 0], 0, 0⟩, ⟨[], [], 0, 0⟩] : List Sample),
      s.positions_minor.length = s.positions_major.length) ∧
    ((merge_adjacent_samples
        (([⟨[0, 1, 5, 6], [0, 0, 0, 0], 0, 0⟩, ⟨[], [], 0, 0⟩] : List Sample).flatMap
          split_sample_on_discontinuities)).flatMap (·.positions_major) =
      (([⟨[0, 1, 5, 6], [0, 0, 0, 0], 0, 0⟩, ⟨[], [], 0, 0⟩] : List Sample).filter
        (fun s => !s.positions_major.isEmpty)).flatMap (·.positions_major)) :=
  ⟨by decide,
    (surgery_preserves_positions
      [⟨[0, 1, 5, 6], [0, 0, 0, 0], 0, 0⟩, ⟨[], [], 0, 0⟩] (by decide)).1⟩

end Polisher
